import Mathlib

/-!
WordLadder: a shallow embedding of `WordLadder.cpp`.

The program finds a shortest word ladder between two words by a breadth-first
search over a queue of partial ladders.  This file embeds `oneHopAway`,
`getWordLadder` and `printWordLadder` as Lean functions and proves properties
of them.

* a `string` is a `List Char`;
* a `Vector<string>` is a `List Word`, `add` appends at the end;
* a `Queue<Vector<string>>` is a `List Ladder`, front at the head;
* a `Lexicon` (library type, not part of the repository) is modelled as a list
  of words with exact-match membership, kept in alphabetical order by `add`,
  which is also the order of iteration.
-/

namespace WordLadder

/-- A `string`: a sequence of characters. -/
abbrev Word := List Char

/-- A `Vector<string>`: the words of a ladder, source first. -/
abbrev Ladder := List Word

/-- Modelled from the spec: the library class `Lexicon` (header `lexicon.h`, not in the
repository).  A set of words queried by exact-match membership; iteration visits the
words in alphabetical order, so the representing list is kept sorted by `add`. -/
abbrev Lexicon := List Word

/-- Alphabetical comparison of two words (strictly before). -/
def wordBefore : Word → Word → Bool
  | [], [] => false
  | [], _ :: _ => true
  | _ :: _, [] => false
  | a :: as, b :: bs =>
    if a.toNat < b.toNat then true
    else if b.toNat < a.toNat then false
    else wordBefore as bs

/-- Modelled from the spec: `Lexicon::contains`, exact-match membership. -/
def Lexicon.contains (lex : Lexicon) (word : Word) : Bool :=
  decide (word ∈ lex)

/-- Insertion of a word at its alphabetical place. -/
def Lexicon.insertSorted (word : Word) : Lexicon → Lexicon
  | [] => [word]
  | x :: xs => if wordBefore word x then word :: x :: xs else x :: Lexicon.insertSorted word xs

/-- Modelled from the spec: `Lexicon::add`; a word already present is not added again. -/
def Lexicon.add (lex : Lexicon) (word : Word) : Lexicon :=
  if lex.contains word then lex else Lexicon.insertSorted word lex

/-- The string `alphabet` of `oneHopAway` (line 152). -/
def alphabet : List Char := "abcdefghijklmnopqrstuvwxyz".toList

/-- The body of the inner loop of `oneHopAway` (lines 155-160) for position `i` and
letter `c`; the state is the pair of the local lexicon `oneHopAway` and `usedWords`. -/
def tryLetter (dictionary : Lexicon) (topWord : Word) (i : Nat)
    (acc : Lexicon × Lexicon) (c : Char) : Lexicon × Lexicon :=
  let testWord := topWord.set i c
  if dictionary.contains testWord && !acc.2.contains testWord then
    (acc.1.add testWord, acc.2.add testWord)
  else acc

/-- The inner loop of `oneHopAway` (lines 154-161): every letter of the alphabet at
position `i`. -/
def tryPosition (dictionary : Lexicon) (topWord : Word)
    (acc : Lexicon × Lexicon) (i : Nat) : Lexicon × Lexicon :=
  alphabet.foldl (tryLetter dictionary topWord i) acc

/-- The function `oneHopAway` (lines 150-164).  `usedWords` is passed by reference in the
source, so the result is the pair of the returned lexicon and the updated `usedWords`. -/
def oneHopAway (dictionary usedWords : Lexicon) (topWord : Word) : Lexicon × Lexicon :=
  (List.range topWord.length).foldl (tryPosition dictionary topWord) ([], usedWords)

/-- The variables of `getWordLadder` that live across iterations of its loop. -/
structure SearchState where
  paths : List Ladder
  wordLadder : Ladder
  usedWords : Lexicon
deriving DecidableEq, Repr

/-- What one evaluation of the loop of `getWordLadder` leads to. -/
inductive LoopStep where
  /-- The body ran to its end, leaving this state; the loop condition is tested again. -/
  | next (st : SearchState)
  /-- The body reached `break` (line 127) in this state. -/
  | found (st : SearchState)
  /-- The loop condition is false: the queue is empty. -/
  | finished
  /-- The access `wordLadder[wordLadder.size()-1]` (line 125) is out of range. -/
  | indexError
deriving DecidableEq, Repr

/-- One evaluation of the loop of `getWordLadder` (lines 123-135): the test of the
condition and, when the queue is not empty, the body. -/
def loopStep (dictionary : Lexicon) (destinationWord : Word) (st : SearchState) : LoopStep :=
  match st.paths with
  | [] => .finished
  | wordLadder :: rest =>
    match wordLadder.getLast? with
    | none => .indexError
    | some topWord =>
      if topWord = destinationWord then
        .found { paths := rest, wordLadder := wordLadder, usedWords := st.usedWords }
      else
        let hops := oneHopAway dictionary st.usedWords topWord
        .next { paths := rest ++ hops.1.map (fun word => wordLadder ++ [word])
                wordLadder := wordLadder
                usedWords := hops.2 }

/-- How a run of `getWordLadder` ends. -/
inductive Outcome where
  /-- The function returns `wordLadder` (line 136).  `dequeued` lists the ladders the loop
  dequeued, oldest first, one for each execution of the loop body; `paths` is what is
  left in the queue. -/
  | returned (wordLadder : Ladder) (dequeued : List Ladder) (paths : List Ladder)
  /-- An index was out of range. -/
  | indexError
  /-- The fuel of the model ran out before the loop ended. -/
  | outOfFuel
deriving DecidableEq, Repr

/-- The loop of `getWordLadder`, run for at most `fuel` evaluations of `loopStep`;
`dequeued` lists the ladders dequeued so far. -/
def whileLoop (dictionary : Lexicon) (destinationWord : Word) :
    Nat → List Ladder → SearchState → Outcome
  | 0, _, _ => .outOfFuel
  | fuel + 1, dequeued, st =>
    match loopStep dictionary destinationWord st with
    | .next st' => whileLoop dictionary destinationWord fuel (dequeued ++ [st'.wordLadder]) st'
    | .found st' => .returned st'.wordLadder (dequeued ++ [st'.wordLadder]) st'.paths
    | .finished => .returned st.wordLadder dequeued st.paths
    | .indexError => .indexError

/-- The state on entry to the loop (lines 116-122). -/
def initialState (sourceWord : Word) : SearchState :=
  { paths := [[sourceWord]]
    wordLadder := [sourceWord]
    usedWords := Lexicon.add [] sourceWord }

/-- The function `getWordLadder` run with the given fuel. -/
def getWordLadderFuel (fuel : Nat) (dictionary : Lexicon)
    (sourceWord destinationWord : Word) : Outcome :=
  whileLoop dictionary destinationWord fuel [] (initialState sourceWord)

/-- The function `getWordLadder` (lines 115-137).  The loop is run with fuel
`dictionary.length + 2`, which is never exhausted (`getWordLadderFuel_returns`). -/
def getWordLadder (dictionary : Lexicon) (sourceWord destinationWord : Word) : Ladder :=
  match getWordLadderFuel (dictionary.length + 2) dictionary sourceWord destinationWord with
  | .returned wordLadder _ _ => wordLadder
  | _ => []

/-- The state in which the loop condition is tested after `k` complete executions of the
loop body, with the ladders dequeued so far; `none` when the loop was left before.  These
are the states at the start of the iterations of the loop. -/
def loopHead (dictionary : Lexicon) (destinationWord : Word) :
    Nat → List Ladder → SearchState → Option (List Ladder × SearchState)
  | 0, dequeued, st => some (dequeued, st)
  | k + 1, dequeued, st =>
    match loopStep dictionary destinationWord st with
    | .next st' => loopHead dictionary destinationWord k (dequeued ++ [st'.wordLadder]) st'
    | _ => none

/-- The procedure `printWordLadder` (lines 171-183): the characters written to `cout`. -/
def printWordLadder (wordLadder : Ladder) (sourceWord destinationWord : Word) :
    Option (List Char) :=
  if sourceWord = destinationWord then
    match wordLadder.head? with
    | none => none
    | some first => some ("Found ladder: ".toList ++ first ++ "\n\n".toList)
  else if wordLadder.length = 1 then
    some ("No word ladder between \"".toList ++ sourceWord ++ "\" and \"".toList
      ++ destinationWord ++ "\" could be found.".toList ++ "\n\n".toList)
  else
    some ("Found ladder:".toList
      ++ (wordLadder.map (fun word => ' ' :: word)).flatten ++ "\n\n".toList)


/-- The function `getEnglishWord` (lines 73-84), reading from the lines of `cin` not yet
read.  The result is the flag returned (`true`: the line was empty, quit), the value left
in `word`, and the lines still unread.  At the end of the input `getline` leaves `word`
empty.  What is written to `cout` is left out. -/
def getEnglishWord (dictionary : Lexicon) : List Word → Bool × Word × List Word
  | [] => (true, [], [])
  | line :: rest =>
    if line.isEmpty then (true, line, rest)
    else if dictionary.contains line then (false, line, rest)
    else getEnglishWord dictionary rest

/-- The function `checkWordEndpoints` (lines 95-101): the flag returned, the value left in
`destinationWord`, and the lines still unread. -/
def checkWordEndpoints (dictionary : Lexicon) (sourceWord destinationWord : Word)
    (input : List Word) : Bool × Word × List Word :=
  if sourceWord.length ≠ destinationWord.length then getEnglishWord dictionary input
  else (false, destinationWord, input)

/-- Lines 42-46 of `main`: the source and destination words with which one iteration of
its loop calls `getWordLadder`, or `none` when the iteration leaves the loop. -/
def mainIteration (dictionary : Lexicon) (input : List Word) : Option (Word × Word) :=
  match getEnglishWord dictionary input with
  | (true, _, _) => none
  | (false, sourceWord, input1) =>
    match getEnglishWord dictionary input1 with
    | (true, _, _) => none
    | (false, destinationWord, input2) =>
      match checkWordEndpoints dictionary sourceWord destinationWord input2 with
      | (true, _, _) => none
      | (false, destinationWord', _) => some (sourceWord, destinationWord')

/-- The test words of `oneHopAway`, in the order the two loops form them: for every
position of `topWord`, every letter of the alphabet put at that position. -/
def testWords (topWord : Word) : List Word :=
  ((List.range topWord.length).map (fun i => alphabet.map (fun c => topWord.set i c))).flatten

/-- The test of line 157 and the two `add` calls, as a function of the test word. -/
def visit (dictionary : Lexicon) (acc : Lexicon × Lexicon) (testWord : Word) :
    Lexicon × Lexicon :=
  if dictionary.contains testWord && !acc.2.contains testWord then
    (acc.1.add testWord, acc.2.add testWord)
  else acc

/-! ## The notions the claims are stated with -/

/-- The number of positions at which two words hold different characters. -/
def diffCount : Word → Word → Nat
  | a :: as, b :: bs => (if a = b then 0 else 1) + diffCount as bs
  | _, _ => 0

/-- Two words of equal length that differ in exactly one character position. -/
def oneLetterApart (a b : Word) : Prop :=
  a.length = b.length ∧ diffCount a b = 1

instance (a b : Word) : Decidable (oneLetterApart a b) :=
  inferInstanceAs (Decidable (a.length = b.length ∧ diffCount a b = 1))

/-- Whether consecutive words of a sequence are one letter apart can be computed. -/
instance decidableSteps : (c : Ladder) → Decidable (List.Chain' oneLetterApart c)
  | [] => isTrue List.chain'_nil
  | [x] => isTrue (List.chain'_singleton x)
  | x :: y :: r =>
    have := decidableSteps (y :: r)
    decidable_of_iff (oneLetterApart x y ∧ List.Chain' oneLetterApart (y :: r))
      List.chain'_cons.symm

/-- A valid substitution chain from `s` to `d` through the dictionary: a sequence that
starts with `s`, ends with `d`, has every word after the first in the dictionary, and
whose consecutive words have equal length and differ in exactly one position. -/
def ValidChain (dictionary : Lexicon) (s d : Word) (chain : Ladder) : Prop :=
  chain.head? = some s ∧ chain.getLast? = some d ∧
    (∀ w ∈ chain.tail, w ∈ dictionary) ∧ List.Chain' oneLetterApart chain

instance (dictionary : Lexicon) (s d : Word) (chain : Ladder) :
    Decidable (ValidChain dictionary s d chain) :=
  have := decidableSteps chain
  inferInstanceAs (Decidable (chain.head? = some s ∧ chain.getLast? = some d ∧
    (∀ w ∈ chain.tail, w ∈ dictionary) ∧ List.Chain' oneLetterApart chain))

/-- A word made of the 26 lowercase letters only. -/
def LowercaseWord (w : Word) : Prop := ∀ c ∈ w, c ∈ alphabet

instance (w : Word) : Decidable (LowercaseWord w) :=
  inferInstanceAs (Decidable (∀ c ∈ w, c ∈ alphabet))

/-- A dictionary of lowercase words. -/
def LowercaseLexicon (dictionary : Lexicon) : Prop := ∀ w ∈ dictionary, LowercaseWord w

instance (dictionary : Lexicon) : Decidable (LowercaseLexicon dictionary) :=
  inferInstanceAs (Decidable (∀ w ∈ dictionary, ∀ c ∈ w, c ∈ alphabet))

/-- The ladder distance from `s` to `w` is `n`: some valid chain from `s` to `w` has `n + 1`
elements (`n` steps) and none has fewer. -/
def HasDistance (dictionary : Lexicon) (s w : Word) (n : Nat) : Prop :=
  (∃ chain, ValidChain dictionary s w chain ∧ chain.length = n + 1) ∧
    ∀ chain, ValidChain dictionary s w chain → n + 1 ≤ chain.length

/-- One step of a ladder: `b` is a dictionary word one letter apart from `a`. -/
def hop (dictionary : Lexicon) (a b : Word) : Prop :=
  oneLetterApart a b ∧ b ∈ dictionary

/-! ## The loop invariant of `getWordLadder` -/

/-- The invariant of the loop of `getWordLadder`, at the test of the loop condition.
`dequeued` lists the ladders dequeued so far, oldest first, so `dequeued ++ st.paths`
is every ladder that was ever enqueued, in the order of enqueueing. -/
structure Inv (dictionary : Lexicon) (s d : Word) (dequeued : List Ladder)
    (st : SearchState) : Prop where
  start : dequeued = [] → st.paths = [[s]]
  cur : st.wordLadder = dequeued.getLast?.getD [s]
  head : ∀ l ∈ dequeued ++ st.paths, l.head? = some s
  chain : ∀ l ∈ dequeued ++ st.paths, List.Chain' (hop dictionary) l
  used_iff : ∀ w, w ∈ st.usedWords ↔ ∃ l ∈ dequeued ++ st.paths, l.getLast? = some w
  lasts_nodup : ((dequeued ++ st.paths).map List.getLast?).Nodup
  mem_used : ∀ l ∈ dequeued ++ st.paths, ∀ w ∈ l, w ∈ st.usedWords
  nodup : ∀ l ∈ dequeued ++ st.paths, l.Nodup
  sorted : ((dequeued ++ st.paths).map List.length).Pairwise (fun m n => m ≤ n)
  front_bound : ∀ f ∈ st.paths.head?, ∀ l ∈ st.paths, l.length ≤ f.length + 1
  done_ne : ∀ l ∈ dequeued, l.getLast? ≠ some d
  closed : LowercaseLexicon dictionary → ∀ l ∈ dequeued, ∀ u, l.getLast? = some u →
    ∀ v, hop dictionary u v → v ∈ st.usedWords
  minimal : LowercaseLexicon dictionary → ∀ l ∈ dequeued ++ st.paths, ∀ c : Ladder,
    c.head? = some s → List.Chain' (hop dictionary) c → c.getLast? = l.getLast? →
    l.length ≤ c.length

/-- The number of ladders still to dequeue at most: those in the queue, and one for every
dictionary word not yet used. -/
def potential (dictionary : Lexicon) (st : SearchState) : Nat :=
  st.paths.length + (dictionary.toFinset \ st.usedWords.toFinset).card

/-- What holds when the loop is left with `wordLadder`, having dequeued `dequeued` and
with `paths` left in the queue: the invariant held at the last test of the loop condition,
where either the queue was empty or its front ladder ended in the destination. -/
def Final (dictionary : Lexicon) (s d : Word) (wordLadder : Ladder)
    (dequeued paths : List Ladder) : Prop :=
  ∃ before st, Inv dictionary s d before st ∧
    ((st.paths = wordLadder :: paths ∧ wordLadder.getLast? = some d ∧
        dequeued = before ++ [wordLadder]) ∨
      (st.paths = [] ∧ paths = [] ∧ st.wordLadder = wordLadder ∧ dequeued = before))

/-- The number of words of a lexicon (`Lexicon::size`): its distinct members. -/
def Lexicon.size (lex : Lexicon) : Nat := lex.toFinset.card

/-- The dictionary of the second concrete scenario of the specification. -/
def hitDictionary : Lexicon :=
  ["hit".toList, "hot".toList, "dot".toList, "dog".toList, "lot".toList, "log".toList,
    "cog".toList]

/-- A dictionary in which "dog" cannot be reached from "cat" although "cat" has a
neighbour. -/
def catDictionary : Lexicon := ["cat".toList, "cot".toList, "dog".toList]

/-- The state of the search from "hit" to "cog" after two executions of the loop body. -/
def hitStateTwo : SearchState :=
  { paths := [["hit".toList, "hot".toList, "dot".toList],
      ["hit".toList, "hot".toList, "lot".toList]]
    wordLadder := ["hit".toList, "hot".toList]
    usedWords := ["dot".toList, "hit".toList, "hot".toList, "lot".toList] }

/-- The dictionary of the 26 one-letter words. -/
def letterDictionary : Lexicon := alphabet.map (fun c => [c])

/-- A dictionary with words of three and of four letters. -/
def mixedDictionary : Lexicon := ["cat".toList, "dogs".toList, "bird".toList]

theorem Lexicon.mem_insertSorted (word x : Word) (lex : Lexicon) :
    x ∈ Lexicon.insertSorted word lex ↔ x = word ∨ x ∈ lex := by
  induction lex with
  | nil => simp [Lexicon.insertSorted]
  | cons y ys ih =>
    unfold Lexicon.insertSorted
    split
    · simp
    · simp only [List.mem_cons, ih]
      tauto

theorem Lexicon.contains_iff (lex : Lexicon) (word : Word) :
    lex.contains word = true ↔ word ∈ lex := by
  simp [Lexicon.contains]

theorem Lexicon.mem_add (lex : Lexicon) (word x : Word) :
    x ∈ lex.add word ↔ x = word ∨ x ∈ lex := by
  unfold Lexicon.add
  split
  · rename_i h
    rw [Lexicon.contains_iff] at h
    constructor
    · intro hx; exact Or.inr hx
    · rintro (rfl | hx)
      · exact h
      · exact hx
  · exact Lexicon.mem_insertSorted word x lex

theorem Lexicon.nodup_insertSorted (word : Word) (lex : Lexicon)
    (hw : word ∉ lex) (hl : lex.Nodup) : (Lexicon.insertSorted word lex).Nodup := by
  induction lex with
  | nil => simp [Lexicon.insertSorted]
  | cons y ys ih =>
    unfold Lexicon.insertSorted
    split
    · exact List.nodup_cons.mpr ⟨hw, hl⟩
    · rw [List.nodup_cons] at hl ⊢
      rw [List.mem_cons, not_or] at hw
      refine ⟨?_, ih hw.2 hl.2⟩
      rw [Lexicon.mem_insertSorted]
      rintro (h | h)
      · exact hw.1 h.symm
      · exact hl.1 h

theorem Lexicon.nodup_add (lex : Lexicon) (word : Word) (hl : lex.Nodup) :
    (lex.add word).Nodup := by
  unfold Lexicon.add
  split
  · exact hl
  · rename_i h
    rw [Lexicon.contains_iff] at h
    exact Lexicon.nodup_insertSorted word lex h hl

/-! ## `oneHopAway` as one fold over the test words -/

theorem tryLetter_eq_visit (dictionary : Lexicon) (topWord : Word) (i : Nat)
    (acc : Lexicon × Lexicon) (c : Char) :
    tryLetter dictionary topWord i acc c = visit dictionary acc (topWord.set i c) := rfl

theorem tryPosition_eq (dictionary : Lexicon) (topWord : Word)
    (acc : Lexicon × Lexicon) (i : Nat) :
    tryPosition dictionary topWord acc i
      = (alphabet.map (fun c => topWord.set i c)).foldl (visit dictionary) acc := by
  unfold tryPosition
  rw [List.foldl_map]
  rfl

theorem oneHopAway_eq_foldl (dictionary usedWords : Lexicon) (topWord : Word) :
    oneHopAway dictionary usedWords topWord
      = (testWords topWord).foldl (visit dictionary) ([], usedWords) := by
  unfold oneHopAway testWords
  rw [List.foldl_flatten, List.foldl_map]
  congr 1

theorem mem_testWords (topWord x : Word) :
    x ∈ testWords topWord ↔ ∃ i, i < topWord.length ∧ ∃ c ∈ alphabet, x = topWord.set i c := by
  unfold testWords
  simp only [List.mem_flatten, List.mem_map, List.mem_range]
  constructor
  · rintro ⟨l, ⟨i, hi, rfl⟩, hx⟩
    rw [List.mem_map] at hx
    obtain ⟨c, hc, rfl⟩ := hx
    exact ⟨i, hi, c, hc, rfl⟩
  · rintro ⟨i, hi, c, hc, rfl⟩
    exact ⟨_, ⟨i, hi, rfl⟩, List.mem_map.mpr ⟨c, hc, rfl⟩⟩

/-- What a fold of `visit` over any list of test words computes. -/
theorem foldl_visit_spec (dictionary : Lexicon) (tests : List Word) :
    ∀ (hops used : Lexicon), (∀ x ∈ hops, x ∈ used) →
      (∀ x, x ∈ (tests.foldl (visit dictionary) (hops, used)).1 ↔
        x ∈ hops ∨ (x ∈ tests ∧ x ∈ dictionary ∧ x ∉ used)) ∧
      (∀ x, x ∈ (tests.foldl (visit dictionary) (hops, used)).2 ↔
        x ∈ used ∨ (x ∈ tests ∧ x ∈ dictionary)) ∧
      (hops.Nodup → (tests.foldl (visit dictionary) (hops, used)).1.Nodup) := by
  induction tests with
  | nil =>
    intro hops used _
    simp
  | cons t ts ih =>
    intro hops used hsub
    rw [List.foldl_cons]
    by_cases ht : t ∈ dictionary ∧ t ∉ used
    · have hv : visit dictionary (hops, used) t = (hops.add t, used.add t) := by
        unfold visit
        simp [Lexicon.contains_iff, Lexicon.contains, ht.1, ht.2]
      rw [hv]
      have hsub' : ∀ x ∈ hops.add t, x ∈ used.add t := by
        intro x hx
        rw [Lexicon.mem_add] at hx ⊢
        exact hx.imp id (hsub x)
      obtain ⟨h1, h2, h3⟩ := ih (hops.add t) (used.add t) hsub'
      refine ⟨?_, ?_, ?_⟩
      · intro x
        rw [h1 x, Lexicon.mem_add, Lexicon.mem_add, List.mem_cons]
        constructor
        · rintro ((rfl | hx) | ⟨hx, hd, hu⟩)
          · exact Or.inr ⟨Or.inl rfl, ht.1, ht.2⟩
          · exact Or.inl hx
          · exact Or.inr ⟨Or.inr hx, hd, fun h => hu (Or.inr h)⟩
        · rintro (hx | ⟨rfl | hx, hd, hu⟩)
          · exact Or.inl (Or.inr hx)
          · exact Or.inl (Or.inl rfl)
          · by_cases hxt : x = t
            · exact Or.inl (Or.inl hxt)
            · exact Or.inr ⟨hx, hd, fun h => h.elim hxt hu⟩
      · intro x
        rw [h2 x, Lexicon.mem_add, List.mem_cons]
        constructor
        · rintro ((rfl | hx) | ⟨hx, hd⟩)
          · exact Or.inr ⟨Or.inl rfl, ht.1⟩
          · exact Or.inl hx
          · exact Or.inr ⟨Or.inr hx, hd⟩
        · rintro (hx | ⟨rfl | hx, hd⟩)
          · exact Or.inl (Or.inr hx)
          · exact Or.inl (Or.inl rfl)
          · exact Or.inr ⟨hx, hd⟩
      · intro hn
        exact h3 (Lexicon.nodup_add hops t hn)
    · have hv : visit dictionary (hops, used) t = (hops, used) := by
        unfold visit
        rw [not_and_or, not_not] at ht
        rcases ht with ht | ht
        · simp [Lexicon.contains, ht]
        · simp [Lexicon.contains, ht]
      rw [hv]
      obtain ⟨h1, h2, h3⟩ := ih hops used hsub
      refine ⟨?_, ?_, h3⟩
      · intro x
        rw [h1 x, List.mem_cons]
        constructor
        · rintro (hx | ⟨hx, hd, hu⟩)
          · exact Or.inl hx
          · exact Or.inr ⟨Or.inr hx, hd, hu⟩
        · rintro (hx | ⟨rfl | hx, hd, hu⟩)
          · exact Or.inl hx
          · exact absurd ⟨hd, hu⟩ ht
          · exact Or.inr ⟨hx, hd, hu⟩
      · intro x
        rw [h2 x, List.mem_cons]
        constructor
        · rintro (hx | ⟨hx, hd⟩)
          · exact Or.inl hx
          · exact Or.inr ⟨Or.inr hx, hd⟩
        · rintro (hx | ⟨rfl | hx, hd⟩)
          · exact Or.inl hx
          · rw [not_and_or, not_not] at ht
            exact Or.inl (ht.resolve_left (fun h => h hd))
          · exact Or.inr ⟨hx, hd⟩

/-- The words returned by `oneHopAway`. -/
theorem mem_oneHopAway (dictionary usedWords : Lexicon) (topWord x : Word) :
    x ∈ (oneHopAway dictionary usedWords topWord).1 ↔
      x ∈ testWords topWord ∧ x ∈ dictionary ∧ x ∉ usedWords := by
  rw [oneHopAway_eq_foldl]
  have h := (foldl_visit_spec dictionary (testWords topWord) [] usedWords
    (fun x hx => absurd hx (List.not_mem_nil x))).1 x
  rw [h]
  simp

/-- The visited set after `oneHopAway`. -/
theorem mem_oneHopAway_used (dictionary usedWords : Lexicon) (topWord x : Word) :
    x ∈ (oneHopAway dictionary usedWords topWord).2 ↔
      x ∈ usedWords ∨ x ∈ (oneHopAway dictionary usedWords topWord).1 := by
  rw [mem_oneHopAway, oneHopAway_eq_foldl]
  have h := (foldl_visit_spec dictionary (testWords topWord) [] usedWords
    (fun x hx => absurd hx (List.not_mem_nil x))).2.1 x
  rw [h]
  constructor
  · rintro (hx | ⟨hx, hd⟩)
    · exact Or.inl hx
    · by_cases hu : x ∈ usedWords
      · exact Or.inl hu
      · exact Or.inr ⟨hx, hd, hu⟩
  · rintro (hx | ⟨hx, hd, _⟩)
    · exact Or.inl hx
    · exact Or.inr ⟨hx, hd⟩

theorem nodup_oneHopAway (dictionary usedWords : Lexicon) (topWord : Word) :
    (oneHopAway dictionary usedWords topWord).1.Nodup := by
  rw [oneHopAway_eq_foldl]
  exact (foldl_visit_spec dictionary (testWords topWord) [] usedWords
    (fun x hx => absurd hx (List.not_mem_nil x))).2.2 List.nodup_nil

/-! ## One-letter substitutions -/

theorem diffCount_self (a : Word) : diffCount a a = 0 := by
  induction a with
  | nil => rfl
  | cons x xs ih => simp [diffCount, ih]

theorem eq_of_diffCount_eq_zero :
    ∀ (a b : Word), a.length = b.length → diffCount a b = 0 → a = b
  | [], [], _, _ => rfl
  | [], _ :: _, h, _ => by simp at h
  | _ :: _, [], h, _ => by simp at h
  | x :: xs, y :: ys, h, h0 => by
    simp only [diffCount] at h0
    have hxy : x = y := by
      by_contra hne
      simp [hne] at h0
    have hrest : diffCount xs ys = 0 := by omega
    have hlen : xs.length = ys.length := by simpa using h
    rw [hxy, eq_of_diffCount_eq_zero xs ys hlen hrest]

theorem oneLetterApart_ne (a b : Word) (h : oneLetterApart a b) : a ≠ b := by
  rintro rfl
  have := h.2
  rw [diffCount_self] at this
  exact absurd this (by decide)

/-- A substitution that changes the word gives a word one letter apart. -/
theorem oneLetterApart_set :
    ∀ (w : Word) (i : Nat) (c : Char), w.set i c ≠ w → oneLetterApart w (w.set i c)
  | [], _, _, h => by simp at h
  | x :: xs, 0, c, h => by
    have hcx : ¬ x = c := by
      rintro rfl
      exact h rfl
    refine ⟨by simp, ?_⟩
    simp [List.set, diffCount, hcx, diffCount_self]
  | x :: xs, i + 1, c, h => by
    have hrec : xs.set i c ≠ xs := by
      intro heq
      apply h
      simp [List.set, heq]
    obtain ⟨h1, h2⟩ := oneLetterApart_set xs i c hrec
    refine ⟨by simp, ?_⟩
    simp only [List.set, diffCount, if_true]
    omega

/-- A word one letter apart is a substitution of one of its own characters. -/
theorem exists_set_of_oneLetterApart :
    ∀ (w x : Word), oneLetterApart w x → ∃ i, i < w.length ∧ ∃ c ∈ x, x = w.set i c
  | [], [], h => by
    have := h.2
    simp [diffCount] at this
  | [], _ :: _, h => by
    have := h.1
    simp at this
  | _ :: _, [], h => by
    have := h.1
    simp at this
  | a :: as, b :: bs, h => by
    obtain ⟨hlen, hcount⟩ := h
    have hlen' : as.length = bs.length := by simpa using hlen
    simp only [diffCount] at hcount
    by_cases hab : a = b
    · subst hab
      simp only [if_true, Nat.zero_add] at hcount
      obtain ⟨i, hi, c, hc, hx⟩ := exists_set_of_oneLetterApart as bs ⟨hlen', hcount⟩
      refine ⟨i + 1, by simpa using hi, c, List.mem_cons_of_mem _ hc, ?_⟩
      simp [List.set, hx]
    · simp only [hab, if_false] at hcount
      have h0 : diffCount as bs = 0 := by omega
      have heq := eq_of_diffCount_eq_zero as bs hlen' h0
      subst heq
      exact ⟨0, by simp, b, List.mem_cons_self _ _, by simp [List.set]⟩

theorem oneLetterApart_of_mem_testWords (w x : Word) (hx : x ∈ testWords w) (hne : x ≠ w) :
    oneLetterApart w x := by
  rw [mem_testWords] at hx
  obtain ⟨i, _, c, _, rfl⟩ := hx
  exact oneLetterApart_set w i c hne

theorem mem_testWords_of_oneLetterApart (w x : Word) (h : oneLetterApart w x)
    (hlow : LowercaseWord x) : x ∈ testWords w := by
  rw [mem_testWords]
  obtain ⟨i, hi, c, hc, hx⟩ := exists_set_of_oneLetterApart w x h
  exact ⟨i, hi, c, hlow c hc, hx⟩

/-- The hops out of `topWord`, for a lowercase dictionary, are the test words in it. -/
theorem hop_iff_testWord (dictionary : Lexicon) (hlow : LowercaseLexicon dictionary)
    (w x : Word) : hop dictionary w x ↔ x ∈ testWords w ∧ x ∈ dictionary ∧ x ≠ w := by
  constructor
  · rintro ⟨h1, h2⟩
    exact ⟨mem_testWords_of_oneLetterApart w x h1 (hlow x h2), h2,
      fun h => oneLetterApart_ne w x h1 h.symm⟩
  · rintro ⟨h1, h2, h3⟩
    exact ⟨oneLetterApart_of_mem_testWords w x h1 h3, h2⟩

/-! ## The invariant holds on entry and is preserved by the loop body -/

theorem Inv.initial (dictionary : Lexicon) (s d : Word) :
    Inv dictionary s d [] (initialState s) := by
  have hused : ∀ w, w ∈ (initialState s).usedWords ↔ w = s := by
    intro w
    simp [initialState, Lexicon.mem_add]
  refine
    { start := fun _ => rfl
      cur := rfl
      head := ?_
      chain := ?_
      used_iff := ?_
      lasts_nodup := ?_
      mem_used := ?_
      nodup := ?_
      sorted := ?_
      front_bound := ?_
      done_ne := ?_
      closed := ?_
      minimal := ?_ }
  · intro l hl
    simp [initialState] at hl
    subst hl
    rfl
  · intro l hl
    simp [initialState] at hl
    subst hl
    exact List.chain'_singleton s
  · intro w
    rw [hused]
    simp [initialState, eq_comm]
  · simp [initialState]
  · intro l hl w hw
    simp [initialState] at hl
    subst hl
    rw [hused]
    simpa using hw
  · intro l hl
    simp [initialState] at hl
    subst hl
    exact List.nodup_singleton s
  · simp [initialState]
  · intro f hf l hl
    simp [initialState] at hf hl
    subst hf hl
    simp
  · intro l hl
    simp at hl
  · intro _ l hl
    simp at hl
  · intro _ l hl c hc _ _
    simp [initialState] at hl
    subst hl
    cases c with
    | nil => simp at hc
    | cons x xs => simp

theorem mem_of_getLast?_eq_some {α : Type} (l : List α) (a : α) (h : l.getLast? = some a) :
    a ∈ l :=
  List.mem_of_mem_getLast? (by rw [h]; exact rfl)

theorem length_pos_of_head? {α : Type} (l : List α) (a : α) (h : l.head? = some a) :
    0 < l.length := by
  cases l with
  | nil => simp at h
  | cons x xs => simp

/-- No chain from the source can end outside the used words without being longer than
the ladder at the front of the queue. -/
theorem Inv.unused_far (dictionary : Lexicon) (s d : Word) (dequeued : List Ladder)
    (st : SearchState) (hinv : Inv dictionary s d dequeued st)
    (hlow : LowercaseLexicon dictionary) (f : Ladder) (rest : List Ladder)
    (hp : st.paths = f :: rest) :
    ∀ (c : Ladder) (v : Word), c.head? = some s → List.Chain' (hop dictionary) c →
      c.getLast? = some v → v ∉ st.usedWords → f.length + 1 ≤ c.length := by
  have hf_mem : f ∈ dequeued ++ st.paths := by
    rw [hp]
    exact List.mem_append_right _ (List.mem_cons_self _ _)
  have hs_used : s ∈ st.usedWords :=
    hinv.mem_used f hf_mem s (List.mem_of_mem_head? (by rw [hinv.head f hf_mem]; exact rfl))
  intro c
  induction c using List.reverseRecOn with
  | nil => intro v hc; simp at hc
  | append_singleton c' x ih =>
    intro v hhead hchain hlast hv
    rw [List.getLast?_concat] at hlast
    have hxv : x = v := Option.some.inj hlast
    subst hxv
    rcases List.eq_nil_or_concat c' with hnil | ⟨c'', u', hc'⟩
    · subst hnil
      simp at hhead
      subst hhead
      exact absurd hs_used hv
    · rw [List.concat_eq_append] at hc'
      subst hc'
      have hhead' : (c'' ++ [u']).head? = some s := by
        cases c'' with
        | nil => simpa using hhead
        | cons y ys => simpa using hhead
      rw [List.chain'_append] at hchain
      obtain ⟨hchain', _, hlink⟩ := hchain
      have hhop : hop dictionary u' x :=
        hlink u' (by rw [List.getLast?_concat]; exact rfl) x (by simp)
      have hlen : (c'' ++ [u'] ++ [x]).length = (c'' ++ [u']).length + 1 := by simp
      by_cases hu' : u' ∈ st.usedWords
      · obtain ⟨l, hl, hlu⟩ := (hinv.used_iff u').mp hu'
        rcases List.mem_append.mp hl with hld | hlp
        · exact absurd (hinv.closed hlow l hld u' hlu x hhop) hv
        · have hmin := hinv.minimal hlow l hl (c'' ++ [u']) hhead' hchain'
            (by rw [List.getLast?_concat, hlu])
          have hfl : f.length ≤ l.length := by
            rw [hp] at hlp
            rcases List.mem_cons.mp hlp with rfl | hlr
            · exact le_rfl
            · have hsorted := hinv.sorted
              rw [hp, List.map_append, List.pairwise_append] at hsorted
              have := hsorted.2.1
              rw [List.map_cons, List.pairwise_cons] at this
              exact this.1 l.length (List.mem_map_of_mem _ hlr)
          omega
      · have := ih u' hhead' hchain' (List.getLast?_concat _) hu'
        omega

/-- The loop body preserves the invariant: the front ladder `f`, ending in `u`, is
dequeued and extended by every word `oneHopAway` returns. -/
theorem Inv.step (dictionary : Lexicon) (s d : Word) (dequeued : List Ladder)
    (f : Ladder) (rest : List Ladder) (cur : Ladder) (used : Lexicon) (u : Word)
    (hinv : Inv dictionary s d dequeued ⟨f :: rest, cur, used⟩)
    (hu : f.getLast? = some u) (hne : u ≠ d) :
    Inv dictionary s d (dequeued ++ [f])
      ⟨rest ++ (oneHopAway dictionary used u).1.map (fun word => f ++ [word]), f,
        (oneHopAway dictionary used u).2⟩ := by
  have hN := mem_oneHopAway dictionary used u
  have hU := mem_oneHopAway_used dictionary used u
  have hNnd := nodup_oneHopAway dictionary used u
  generalize (oneHopAway dictionary used u).1 = hops at hN hU hNnd
  generalize (oneHopAway dictionary used u).2 = used' at hU
  have hf_mem : f ∈ dequeued ++ f :: rest :=
    List.mem_append_right _ (List.mem_cons_self _ _)
  have hf_used : ∀ w ∈ f, w ∈ used := hinv.mem_used f hf_mem
  have hu_used : u ∈ used := hf_used u (mem_of_getLast?_eq_some f u hu)
  have hsub : ∀ w, w ∈ used → w ∈ used' := fun w hw => (hU w).mpr (Or.inl hw)
  have hall : dequeued ++ [f] ++ (rest ++ hops.map (fun word => f ++ [word]))
      = (dequeued ++ f :: rest) ++ hops.map (fun word => f ++ [word]) := by simp
  have hmem : ∀ l, l ∈ dequeued ++ [f] ++ (rest ++ hops.map (fun word => f ++ [word])) ↔
      l ∈ dequeued ++ f :: rest ∨ ∃ n ∈ hops, l = f ++ [n] := by
    intro l
    rw [hall, List.mem_append, List.mem_map]
    simp only [eq_comm]
  have hfpos : 0 < f.length := length_pos_of_head? f s (hinv.head f hf_mem)
  have hdone_le : ∀ l ∈ dequeued ++ f :: rest, l.length ≤ f.length + 1 := by
    intro l hl
    rcases List.mem_append.mp hl with hld | hlp
    · have hsorted := hinv.sorted
      simp only [List.map_append, List.pairwise_append] at hsorted
      have := hsorted.2.2 l.length (List.mem_map_of_mem _ hld) f.length
        (List.mem_map_of_mem _ (List.mem_cons_self _ _))
      omega
    · exact hinv.front_bound f (by simp) l hlp
  have hrest_ge : ∀ l ∈ rest, f.length ≤ l.length := by
    intro l hl
    have hsorted := hinv.sorted
    simp only [List.map_append, List.pairwise_append, List.map_cons,
      List.pairwise_cons] at hsorted
    exact hsorted.2.1.1 l.length (List.mem_map_of_mem _ hl)
  refine
    { start := ?_
      cur := ?_
      head := ?_
      chain := ?_
      used_iff := ?_
      lasts_nodup := ?_
      mem_used := ?_
      nodup := ?_
      sorted := ?_
      front_bound := ?_
      done_ne := ?_
      closed := ?_
      minimal := ?_ }
  · intro h
    simp at h
  · simp
  · intro l hl
    rcases (hmem l).mp hl with hl | ⟨n, _, rfl⟩
    · exact hinv.head l hl
    · rw [List.head?_append, hinv.head f hf_mem]
      rfl
  · intro l hl
    rcases (hmem l).mp hl with hl | ⟨n, hn, rfl⟩
    · exact hinv.chain l hl
    · refine List.Chain'.append (hinv.chain f hf_mem) (List.chain'_singleton n) ?_
      intro x hx y hy
      rw [hu] at hx
      have hxu : u = x := Option.some.inj hx
      have hyn : n = y := by simpa using hy
      subst hxu hyn
      obtain ⟨h1, h2, h3⟩ := (hN n).mp hn
      refine ⟨oneLetterApart_of_mem_testWords u n h1 ?_, h2⟩
      rintro rfl
      exact h3 hu_used
  · intro w
    rw [hU w, hinv.used_iff w]
    constructor
    · rintro (⟨l, hl, hlw⟩ | hw)
      · exact ⟨l, (hmem l).mpr (Or.inl hl), hlw⟩
      · exact ⟨f ++ [w], (hmem _).mpr (Or.inr ⟨w, hw, rfl⟩), List.getLast?_concat f⟩
    · rintro ⟨l, hl, hlw⟩
      rcases (hmem l).mp hl with hl | ⟨n, hn, rfl⟩
      · exact Or.inl ⟨l, hl, hlw⟩
      · rw [List.getLast?_concat] at hlw
        have : n = w := Option.some.inj hlw
        subst this
        exact Or.inr hn
  · rw [hall, List.map_append, List.nodup_append]
    refine ⟨hinv.lasts_nodup, ?_, ?_⟩
    · rw [List.map_map]
      refine List.Nodup.map_on ?_ hNnd
      intro x _ y _ hxy
      simp only [Function.comp, List.getLast?_concat] at hxy
      exact Option.some.inj hxy
    · intro o ho1 ho2
      rw [List.mem_map] at ho1 ho2
      obtain ⟨l, hl, rfl⟩ := ho1
      obtain ⟨l', hl', hll'⟩ := ho2
      rw [List.mem_map] at hl'
      obtain ⟨n, hn, rfl⟩ := hl'
      rw [List.getLast?_concat] at hll'
      exact ((hN n).mp hn).2.2 ((hinv.used_iff n).mpr ⟨l, hl, hll'.symm⟩)
  · intro l hl w hw
    rcases (hmem l).mp hl with hl | ⟨n, hn, rfl⟩
    · exact hsub w (hinv.mem_used l hl w hw)
    · rcases List.mem_append.mp hw with hw | hw
      · exact hsub w (hf_used w hw)
      · have : w = n := by simpa using hw
        subst this
        exact (hU w).mpr (Or.inr hn)
  · intro l hl
    rcases (hmem l).mp hl with hl | ⟨n, hn, rfl⟩
    · exact hinv.nodup l hl
    · refine List.Nodup.append (hinv.nodup f hf_mem) (List.nodup_singleton n) ?_
      intro w hw1 hw2
      have : w = n := by simpa using hw2
      subst this
      exact ((hN w).mp hn).2.2 (hf_used w hw1)
  · rw [hall, List.map_append, List.pairwise_append]
    refine ⟨hinv.sorted, ?_, ?_⟩
    · rw [List.pairwise_map, List.pairwise_map]
      exact List.pairwise_of_forall (fun x y => by simp)
    · intro a ha b hb
      rw [List.mem_map] at ha hb
      obtain ⟨l, hl, rfl⟩ := ha
      obtain ⟨l', hl', rfl⟩ := hb
      rw [List.mem_map] at hl'
      obtain ⟨n, _, rfl⟩ := hl'
      have := hdone_le l hl
      simpa using this
  · intro f' hf' l hl
    have hf'mem : f' ∈ rest ++ hops.map (fun word => f ++ [word]) :=
      List.mem_of_mem_head? hf'
    have hf'ge : f.length ≤ f'.length := by
      rcases List.mem_append.mp hf'mem with h | h
      · exact hrest_ge f' h
      · rw [List.mem_map] at h
        obtain ⟨n, _, rfl⟩ := h
        simp
    have hlle : l.length ≤ f.length + 1 := by
      rcases List.mem_append.mp hl with h | h
      · exact hdone_le l (List.mem_append_right _ (List.mem_cons_of_mem _ h))
      · rw [List.mem_map] at h
        obtain ⟨n, _, rfl⟩ := h
        simp
    omega
  · intro l hl
    rcases List.mem_append.mp hl with h | h
    · exact hinv.done_ne l h
    · have : l = f := by simpa using h
      subst this
      rw [hu]
      intro hud
      exact hne (Option.some.inj hud)
  · intro hlow l hl u' hlu v hv
    rcases List.mem_append.mp hl with h | h
    · exact hsub v (hinv.closed hlow l h u' hlu v hv)
    · have : l = f := by simpa using h
      subst this
      rw [hu] at hlu
      have : u = u' := Option.some.inj hlu
      subst this
      obtain ⟨h1, h2, _⟩ := (hop_iff_testWord dictionary hlow u v).mp hv
      by_cases hvu : v ∈ used
      · exact hsub v hvu
      · exact (hU v).mpr (Or.inr ((hN v).mpr ⟨h1, h2, hvu⟩))
  · intro hlow l hl c hc1 hc2 hc3
    rcases (hmem l).mp hl with hl | ⟨n, hn, rfl⟩
    · exact hinv.minimal hlow l hl c hc1 hc2 hc3
    · rw [List.getLast?_concat] at hc3
      have := Inv.unused_far dictionary s d dequeued _ hinv hlow f rest rfl c n hc1 hc2 hc3
        ((hN n).mp hn).2.2
      simpa using this

/-! ## Termination of the loop -/

theorem potential_step (dictionary : Lexicon) (f : Ladder) (rest : List Ladder)
    (cur : Ladder) (used : Lexicon) (u : Word) :
    potential dictionary
      ⟨rest ++ (oneHopAway dictionary used u).1.map (fun word => f ++ [word]), f,
        (oneHopAway dictionary used u).2⟩ + 1
      = potential dictionary ⟨f :: rest, cur, used⟩ := by
  have hN := mem_oneHopAway dictionary used u
  have hU := mem_oneHopAway_used dictionary used u
  have hNnd := nodup_oneHopAway dictionary used u
  generalize (oneHopAway dictionary used u).1 = hops at hN hU hNnd
  generalize (oneHopAway dictionary used u).2 = used' at hU
  have hsub : hops.toFinset ⊆ dictionary.toFinset \ used.toFinset := by
    intro x hx
    rw [List.mem_toFinset] at hx
    rw [Finset.mem_sdiff, List.mem_toFinset, List.mem_toFinset]
    exact ((hN x).mp hx).2
  have heq : dictionary.toFinset \ used'.toFinset
      = (dictionary.toFinset \ used.toFinset) \ hops.toFinset := by
    ext x
    simp only [Finset.mem_sdiff, List.mem_toFinset, hU x]
    tauto
  have hcard := Finset.card_sdiff hsub
  have hle := Finset.card_le_card hsub
  rw [List.toFinset_card_of_nodup hNnd] at hcard hle
  simp only [potential, List.length_append, List.length_map, List.length_cons, heq, hcard]
  omega

/-- The loop ends: with more fuel than the potential of the state it returns, and the
body runs at most `potential` more times. -/
theorem whileLoop_run (dictionary : Lexicon) (s d : Word) :
    ∀ (fuel : Nat) (dequeued : List Ladder) (st : SearchState),
      Inv dictionary s d dequeued st → potential dictionary st < fuel →
      ∃ l deq q, whileLoop dictionary d fuel dequeued st = .returned l deq q ∧
        deq.length ≤ dequeued.length + potential dictionary st ∧
        Final dictionary s d l deq q := by
  intro fuel
  induction fuel with
  | zero => intro _ _ _ h; exact absurd h (Nat.not_lt_zero _)
  | succ fuel ih =>
    intro dequeued st hinv hfuel
    obtain ⟨paths, cur, used⟩ := st
    cases paths with
    | nil =>
      refine ⟨cur, dequeued, [], rfl, Nat.le_add_right _ _, dequeued, _, hinv, ?_⟩
      exact Or.inr ⟨rfl, rfl, rfl, rfl⟩
    | cons f rest =>
      have hf_mem : f ∈ dequeued ++ f :: rest :=
        List.mem_append_right _ (List.mem_cons_self _ _)
      have hhead := hinv.head f hf_mem
      cases hlast : f.getLast? with
      | none =>
        rw [List.getLast?_eq_none_iff] at hlast
        subst hlast
        simp at hhead
      | some u =>
        by_cases hud : u = d
        · refine ⟨f, dequeued ++ [f], rest, ?_, ?_, dequeued, _, hinv, ?_⟩
          · simp [whileLoop, loopStep, hlast, hud]
          · simp [potential]
            omega
          · exact Or.inl ⟨rfl, by rw [hlast, hud], rfl⟩
        · have hstep := Inv.step dictionary s d dequeued f rest cur used u hinv hlast hud
          have hpot := potential_step dictionary f rest cur used u
          obtain ⟨l, deq, q, h1, h2, h3⟩ := ih _ _ hstep (by omega)
          refine ⟨l, deq, q, ?_, ?_, h3⟩
          · simp only [whileLoop, loopStep, hlast, hud, if_false]
            exact h1
          · simp only [List.length_append, List.length_singleton] at h2
            omega

theorem potential_initial (dictionary : Lexicon) (s : Word) :
    potential dictionary (initialState s) ≤ dictionary.toFinset.card + 1 := by
  simp only [potential, initialState, List.length_singleton]
  have hsub : dictionary.toFinset \ (Lexicon.add [] s).toFinset ⊆ dictionary.toFinset :=
    Finset.sdiff_subset
  have := Finset.card_le_card hsub
  omega

theorem toFinset_card_le_length (dictionary : Lexicon) :
    dictionary.toFinset.card ≤ dictionary.length :=
  List.toFinset_card_le dictionary

/-- With fuel beyond the number of dictionary words plus one, `getWordLadder` returns,
after at most that many executions of the loop body, in a `Final` situation. -/
theorem getWordLadderFuel_returns (dictionary : Lexicon) (s d : Word) (fuel : Nat)
    (hfuel : dictionary.toFinset.card + 1 < fuel) :
    ∃ l deq q, getWordLadderFuel fuel dictionary s d = .returned l deq q ∧
      deq.length ≤ dictionary.toFinset.card + 1 ∧ Final dictionary s d l deq q := by
  have hpot := potential_initial dictionary s
  obtain ⟨l, deq, q, h1, h2, h3⟩ := whileLoop_run dictionary s d fuel [] (initialState s)
    (Inv.initial dictionary s d) (by omega)
  refine ⟨l, deq, q, h1, ?_, h3⟩
  simp only [List.length_nil, Nat.zero_add] at h2
  omega

/-- Once the loop has returned, more fuel does not change the outcome. -/
theorem whileLoop_mono (dictionary : Lexicon) (d : Word) :
    ∀ (fuel fuel' : Nat) (dequeued : List Ladder) (st : SearchState)
      (l : Ladder) (deq q : List Ladder), fuel ≤ fuel' →
      whileLoop dictionary d fuel dequeued st = .returned l deq q →
      whileLoop dictionary d fuel' dequeued st = .returned l deq q := by
  intro fuel
  induction fuel with
  | zero =>
    intro fuel' dequeued st l deq q _ h
    simp [whileLoop] at h
  | succ fuel ih =>
    intro fuel' dequeued st l deq q hle h
    obtain ⟨k, rfl⟩ : ∃ k, fuel' = k + 1 := ⟨fuel' - 1, by omega⟩
    simp only [whileLoop] at h ⊢
    cases hstep : loopStep dictionary d st with
    | next st' =>
      rw [hstep] at h
      simp only at h ⊢
      exact ih k _ st' l deq q (by omega) h
    | found st' =>
      rw [hstep] at h
      exact h
    | finished =>
      rw [hstep] at h
      exact h
    | indexError =>
      rw [hstep] at h
      exact h

/-- The value of `getWordLadder` is what the loop returns with any sufficient fuel, after
at most `|D| + 1` executions of the body, in a `Final` situation. -/
theorem getWordLadderFuel_eq (dictionary : Lexicon) (s d : Word) (fuel : Nat)
    (hfuel : dictionary.toFinset.card + 1 < fuel) :
    ∃ deq q, getWordLadderFuel fuel dictionary s d
        = .returned (getWordLadder dictionary s d) deq q ∧
      deq.length ≤ dictionary.toFinset.card + 1 ∧
      Final dictionary s d (getWordLadder dictionary s d) deq q := by
  have hlen := toFinset_card_le_length dictionary
  obtain ⟨l, deq, q, h1, h2, h3⟩ := getWordLadderFuel_returns dictionary s d fuel hfuel
  obtain ⟨l0, deq0, q0, g1, _, _⟩ :=
    getWordLadderFuel_returns dictionary s d (dictionary.length + 2) (by omega)
  have hval : getWordLadder dictionary s d = l0 := by
    unfold getWordLadder
    rw [g1]
  have hsame : Outcome.returned l deq q = Outcome.returned l0 deq0 q0 := by
    rcases Nat.le_total fuel (dictionary.length + 2) with hle | hle
    · have := whileLoop_mono dictionary d fuel (dictionary.length + 2) [] (initialState s)
        l deq q hle h1
      unfold getWordLadderFuel at g1
      rw [← this, g1]
    · have := whileLoop_mono dictionary d (dictionary.length + 2) fuel [] (initialState s)
        l0 deq0 q0 hle g1
      unfold getWordLadderFuel at h1
      rw [← this, h1]
  have hl : l = l0 := by injection hsame
  refine ⟨deq, q, ?_, h2, ?_⟩
  · rw [hval, ← hl]
    exact h1
  · rw [hval, ← hl]
    exact h3

/-- The situation in which `getWordLadder` returns its value. -/
theorem getWordLadder_final (dictionary : Lexicon) (s d : Word) :
    ∃ deq q, Final dictionary s d (getWordLadder dictionary s d) deq q := by
  have hlen := toFinset_card_le_length dictionary
  obtain ⟨deq, q, _, _, h⟩ :=
    getWordLadderFuel_eq dictionary s d (dictionary.length + 2) (by omega)
  exact ⟨deq, q, h⟩

/-! ## What holds of the returned ladder -/

theorem chain'_hop_iff (dictionary : Lexicon) :
    ∀ c : Ladder, List.Chain' (hop dictionary) c ↔
      (∀ w ∈ c.tail, w ∈ dictionary) ∧ List.Chain' oneLetterApart c
  | [] => by simp
  | [x] => by simp
  | x :: y :: r => by
    rw [List.chain'_cons, List.chain'_cons, chain'_hop_iff dictionary (y :: r)]
    simp only [hop, List.tail_cons, List.mem_cons, forall_eq_or_imp]
    tauto

theorem validChain_iff (dictionary : Lexicon) (s d : Word) (c : Ladder) :
    ValidChain dictionary s d c ↔
      c.head? = some s ∧ c.getLast? = some d ∧ List.Chain' (hop dictionary) c := by
  unfold ValidChain
  rw [chain'_hop_iff]

/-- The returned ladder is one of the ladders that were enqueued. -/
theorem Final.mem (dictionary : Lexicon) (s d : Word) (l : Ladder) (deq q : List Ladder)
    (h : Final dictionary s d l deq q) :
    ∃ before st, Inv dictionary s d before st ∧ l ∈ before ++ st.paths ∧
      deq ++ q = before ++ st.paths := by
  obtain ⟨before, st, hinv, hcase⟩ := h
  refine ⟨before, st, hinv, ?_⟩
  rcases hcase with ⟨hp, _, hdeq⟩ | ⟨hp, hq, hcur, hdeq⟩
  · rw [hp, hdeq]
    exact ⟨List.mem_append_right _ (List.mem_cons_self _ _), by simp⟩
  · have hne : before ≠ [] := by
      intro hnil
      have := hinv.start hnil
      rw [hp] at this
      simp at this
    have hcur' := hinv.cur
    rw [hcur] at hcur'
    refine ⟨List.mem_append_left _ ?_, by rw [hp, hq, hdeq]⟩
    cases hb : before.getLast? with
    | none => exact absurd (List.getLast?_eq_none_iff.mp hb) hne
    | some x =>
      rw [hb] at hcur'
      simp only [Option.getD_some] at hcur'
      rw [hcur']
      exact mem_of_getLast?_eq_some before x hb

/-- When the queue runs empty, every chain of hops from the source stays inside the
used words. -/
theorem Inv.exhausted_closed (dictionary : Lexicon) (s d : Word) (before : List Ladder)
    (st : SearchState) (hinv : Inv dictionary s d before st)
    (hlow : LowercaseLexicon dictionary) (hp : st.paths = []) :
    ∀ (c : Ladder) (v : Word), c.head? = some s → List.Chain' (hop dictionary) c →
      c.getLast? = some v → v ∈ st.usedWords := by
  have hne : before ≠ [] := by
    intro hnil
    have := hinv.start hnil
    rw [hp] at this
    simp at this
  have hs_used : s ∈ st.usedWords := by
    obtain ⟨l, hl⟩ := List.exists_mem_of_ne_nil before hne
    have hl' : l ∈ before ++ st.paths := List.mem_append_left _ hl
    exact hinv.mem_used l hl' s
      (List.mem_of_mem_head? (by rw [hinv.head l hl']; exact rfl))
  intro c
  induction c using List.reverseRecOn with
  | nil => intro v hc; simp at hc
  | append_singleton c' x ih =>
    intro v hhead hchain hlast
    rw [List.getLast?_concat] at hlast
    have hxv : x = v := Option.some.inj hlast
    subst hxv
    rcases List.eq_nil_or_concat c' with hnil | ⟨c'', u', hc'⟩
    · subst hnil
      simp at hhead
      subst hhead
      exact hs_used
    · rw [List.concat_eq_append] at hc'
      subst hc'
      have hhead' : (c'' ++ [u']).head? = some s := by
        cases c'' with
        | nil => simpa using hhead
        | cons y ys => simpa using hhead
      rw [List.chain'_append] at hchain
      obtain ⟨hchain', _, hlink⟩ := hchain
      have hhop : hop dictionary u' x :=
        hlink u' (by rw [List.getLast?_concat]; exact rfl) x (by simp)
      have hu' := ih u' hhead' hchain' (List.getLast?_concat _)
      obtain ⟨l, hl, hlu⟩ := (hinv.used_iff u').mp hu'
      rw [hp, List.append_nil] at hl
      exact hinv.closed hlow l hl u' hlu x hhop

/-- With a lowercase dictionary, a destination that some chain reaches is found. -/
theorem Final.found_of_chain (dictionary : Lexicon) (s d : Word) (l : Ladder)
    (deq q : List Ladder) (h : Final dictionary s d l deq q)
    (hlow : LowercaseLexicon dictionary) (c : Ladder) (hc : ValidChain dictionary s d c) :
    l.getLast? = some d := by
  obtain ⟨before, st, hinv, hcase⟩ := h
  rcases hcase with ⟨_, hl, _⟩ | ⟨hp, _, _, _⟩
  · exact hl
  · rw [validChain_iff] at hc
    have hd := Inv.exhausted_closed dictionary s d before st hinv hlow hp c d hc.1 hc.2.2 hc.2.1
    obtain ⟨l', hl', hl'd⟩ := (hinv.used_iff d).mp hd
    rw [hp, List.append_nil] at hl'
    exact absurd hl'd (hinv.done_ne l' hl')

theorem getWordLadder_head (dictionary : Lexicon) (s d : Word) :
    (getWordLadder dictionary s d).head? = some s := by
  obtain ⟨deq, q, h⟩ := getWordLadder_final dictionary s d
  obtain ⟨before, st, hinv, hmem, _⟩ := Final.mem dictionary s d _ deq q h
  exact hinv.head _ hmem

theorem getWordLadder_chain (dictionary : Lexicon) (s d : Word) :
    List.Chain' (hop dictionary) (getWordLadder dictionary s d) := by
  obtain ⟨deq, q, h⟩ := getWordLadder_final dictionary s d
  obtain ⟨before, st, hinv, hmem, _⟩ := Final.mem dictionary s d _ deq q h
  exact hinv.chain _ hmem

theorem getWordLadder_last_of_chain (dictionary : Lexicon) (s d : Word)
    (hlow : LowercaseLexicon dictionary) (c : Ladder) (hc : ValidChain dictionary s d c) :
    (getWordLadder dictionary s d).getLast? = some d := by
  obtain ⟨deq, q, h⟩ := getWordLadder_final dictionary s d
  exact Final.found_of_chain dictionary s d _ deq q h hlow c hc

theorem getWordLadder_validChain (dictionary : Lexicon) (s d : Word)
    (hlast : (getWordLadder dictionary s d).getLast? = some d) :
    ValidChain dictionary s d (getWordLadder dictionary s d) := by
  rw [validChain_iff]
  exact ⟨getWordLadder_head dictionary s d, hlast, getWordLadder_chain dictionary s d⟩

/-! ## The claims -/

/-- C1 (shortest path).  For a dictionary of lowercase words and any valid substitution
chain `chain` from `s` to `d` (its existence forces `s` and `d` to have equal length), the
ladder `getWordLadder` returns is itself a valid chain from `s` to `d` and has at most as
many elements as `chain`. -/
theorem getWordLadder_shortest (dictionary : Lexicon) (s d : Word)
    (hlow : LowercaseLexicon dictionary) (chain : Ladder)
    (hchain : ValidChain dictionary s d chain) :
    ValidChain dictionary s d (getWordLadder dictionary s d) ∧
      (getWordLadder dictionary s d).length ≤ chain.length := by
  have hlast := getWordLadder_last_of_chain dictionary s d hlow chain hchain
  refine ⟨getWordLadder_validChain dictionary s d hlast, ?_⟩
  obtain ⟨deq, q, h⟩ := getWordLadder_final dictionary s d
  obtain ⟨before, st, hinv, hmem, _⟩ := Final.mem dictionary s d _ deq q h
  rw [validChain_iff] at hchain
  exact hinv.minimal hlow _ hmem chain hchain.1 hchain.2.2 (by rw [hchain.2.1, hlast])

/-- Witness of C1: the scenario "hit" to "cog" of the specification, against the chain
hit, hot, lot, log, cog. -/
theorem getWordLadder_shortest_witness :
    ValidChain hitDictionary "hit".toList "cog".toList
        (getWordLadder hitDictionary "hit".toList "cog".toList) ∧
      (getWordLadder hitDictionary "hit".toList "cog".toList).length
        ≤ ["hit".toList, "hot".toList, "lot".toList, "log".toList, "cog".toList].length :=
  getWordLadder_shortest hitDictionary "hit".toList "cog".toList (by decide)
    ["hit".toList, "hot".toList, "lot".toList, "log".toList, "cog".toList] (by decide)

/-- C2 (soundness and completeness).  For a dictionary of lowercase words and all words
`s`, `d`, the returned ladder starts with `s` and ends with `d` exactly when a valid
substitution chain from `s` to `d` exists (the chain `[s]` counts when `s = d`). -/
theorem getWordLadder_sound_complete (dictionary : Lexicon) (s d : Word)
    (hlow : LowercaseLexicon dictionary) :
    ((getWordLadder dictionary s d).head? = some s ∧
        (getWordLadder dictionary s d).getLast? = some d) ↔
      ∃ chain, ValidChain dictionary s d chain := by
  constructor
  · rintro ⟨_, hlast⟩
    exact ⟨_, getWordLadder_validChain dictionary s d hlast⟩
  · rintro ⟨chain, hchain⟩
    exact ⟨getWordLadder_head dictionary s d,
      getWordLadder_last_of_chain dictionary s d hlow chain hchain⟩

/-- Witness of C2: the scenario "hit" to "cog". -/
theorem getWordLadder_sound_complete_witness :
    ((getWordLadder hitDictionary "hit".toList "cog".toList).head? = some "hit".toList ∧
        (getWordLadder hitDictionary "hit".toList "cog".toList).getLast?
          = some "cog".toList) ↔
      ∃ chain, ValidChain hitDictionary "hit".toList "cog".toList chain :=
  getWordLadder_sound_complete hitDictionary "hit".toList "cog".toList (by decide)

/-- C3 (failure result), evaluated where it fails: "cat" and "dog" have equal length and no
chain through the dictionary cat, cot, dog connects them, yet `getWordLadder` returns the
two-element ladder cat, cot (the last ladder dequeued) and not the one-element ladder of
the source. -/
theorem getWordLadder_failure_not_singleton :
    "cat".toList.length = "dog".toList.length ∧
      (¬ ∃ chain, ValidChain catDictionary "cat".toList "dog".toList chain) ∧
      getWordLadder catDictionary "cat".toList "dog".toList = ["cat".toList, "cot".toList] ∧
      getWordLadder catDictionary "cat".toList "dog".toList ≠ ["cat".toList] := by
  have hval : getWordLadder catDictionary "cat".toList "dog".toList
      = ["cat".toList, "cot".toList] := by decide
  refine ⟨by decide, ?_, hval, by rw [hval]; decide⟩
  rintro ⟨chain, hchain⟩
  have h := getWordLadder_last_of_chain catDictionary "cat".toList "dog".toList
    (by decide) chain hchain
  rw [hval] at h
  exact absurd h (by decide)

/-- C4 (end-to-end report), evaluated where it fails: for the distinct equal-length words
"cat" and "dog", which no chain through the dictionary cat, cot, dog connects, the text
printed is "Found ladder: cat cot" and not the "No word ladder" message. -/
theorem printWordLadder_reports_unfound_ladder :
    LowercaseLexicon catDictionary ∧ "cat".toList ≠ "dog".toList ∧
      "cat".toList.length = "dog".toList.length ∧
      (¬ ∃ chain, ValidChain catDictionary "cat".toList "dog".toList chain) ∧
      printWordLadder (getWordLadder catDictionary "cat".toList "dog".toList)
          "cat".toList "dog".toList
        = some "Found ladder: cat cot\n\n".toList := by
  have hval : getWordLadder catDictionary "cat".toList "dog".toList
      = ["cat".toList, "cot".toList] := by decide
  refine ⟨by decide, by decide, by decide, ?_, by rw [hval]; decide⟩
  rintro ⟨chain, hchain⟩
  have h := getWordLadder_last_of_chain catDictionary "cat".toList "dog".toList
    (by decide) chain hchain
  rw [hval] at h
  exact absurd h (by decide)

/-- C5 (trivial ladder).  For every dictionary and every word `w` (in the dictionary or
not), `getWordLadder` with source and destination `w` returns exactly `[w]`; the loop
dequeues the single ladder `[w]` and leaves the queue empty, so no neighbour was
enqueued. -/
theorem getWordLadder_same_word (dictionary : Lexicon) (w : Word) :
    getWordLadder dictionary w w = [w] ∧
      ∀ fuel, getWordLadderFuel (fuel + 1) dictionary w w = .returned [w] [[w]] [] := by
  have h : ∀ fuel, getWordLadderFuel (fuel + 1) dictionary w w = .returned [w] [[w]] [] := by
    intro fuel
    simp [getWordLadderFuel, whileLoop, loopStep, initialState]
  refine ⟨?_, h⟩
  unfold getWordLadder
  rw [h]

/-- C6 (single-letter steps).  For every dictionary and all words `s`, `d`, any two
consecutive elements of the returned ladder have equal length and differ in exactly one
character position. -/
theorem getWordLadder_single_letter_steps (dictionary : Lexicon) (s d : Word) :
    List.Chain' oneLetterApart (getWordLadder dictionary s d) :=
  ((chain'_hop_iff dictionary _).mp (getWordLadder_chain dictionary s d)).2

/-- C7 (dictionary membership).  For every dictionary and all words `s`, `d`, the first
element of the returned ladder is `s` and every other element is in the dictionary. -/
theorem getWordLadder_members (dictionary : Lexicon) (s d : Word) :
    (getWordLadder dictionary s d).head? = some s ∧
      ∀ w ∈ (getWordLadder dictionary s d).tail, w ∈ dictionary :=
  ⟨getWordLadder_head dictionary s d,
    ((chain'_hop_iff dictionary _).mp (getWordLadder_chain dictionary s d)).1⟩

/-- C8 (no repetition).  For every dictionary and all words `s`, `d`, the elements of the
returned ladder are pairwise distinct, whether the search succeeded or not. -/
theorem getWordLadder_nodup (dictionary : Lexicon) (s d : Word) :
    (getWordLadder dictionary s d).Nodup := by
  obtain ⟨deq, q, h⟩ := getWordLadder_final dictionary s d
  obtain ⟨before, st, hinv, hmem, _⟩ := Final.mem dictionary s d _ deq q h
  exact hinv.nodup _ hmem

/-- C9 (termination).  For every dictionary and all words `s`, `d` of any lengths, the loop
of `getWordLadder` ends: with fuel `|D| + 2` or more the run returns the value of
`getWordLadder`, having executed the loop body (one dequeue each) at most `|D| + 1` times;
and over all ladders ever enqueued (those dequeued and those left in the queue) no two
end in the same word. -/
theorem getWordLadder_terminates (dictionary : Lexicon) (s d : Word) (extra : Nat) :
    ∃ dequeued paths,
      getWordLadderFuel (dictionary.size + 2 + extra) dictionary s d
        = .returned (getWordLadder dictionary s d) dequeued paths ∧
      dequeued.length ≤ dictionary.size + 1 ∧
      ((dequeued ++ paths).map List.getLast?).Nodup := by
  obtain ⟨deq, q, h1, h2, h3⟩ := getWordLadderFuel_eq dictionary s d
    (dictionary.size + 2 + extra) (by unfold Lexicon.size; omega)
  refine ⟨deq, q, h1, h2, ?_⟩
  obtain ⟨before, st, hinv, _, heq⟩ := Final.mem dictionary s d _ deq q h3
  rw [heq]
  exact hinv.lasts_nodup

/-- C10 (neighbour generation result).  For every dictionary `D`, visited set `V` and word
`w`, a word is returned by `oneHopAway(D, V, w)` exactly when it is `w` with one position
`i < |w|` replaced by a letter of the alphabet, it is in `D`, and it is not in `V` as it
was before the call. -/
theorem oneHopAway_result (dictionary usedWords : Lexicon) (topWord x : Word) :
    x ∈ (oneHopAway dictionary usedWords topWord).1 ↔
      (∃ i, i < topWord.length ∧ ∃ c ∈ alphabet, x = topWord.set i c) ∧
        x ∈ dictionary ∧ x ∉ usedWords := by
  rw [mem_oneHopAway, mem_testWords]

/-! ## The states at the head of the loop -/

/-- When the loop body runs to its end: the front ladder is dequeued and its extensions
are enqueued. -/
theorem loopStep_next (dictionary : Lexicon) (d : Word) (st st' : SearchState)
    (h : loopStep dictionary d st = .next st') :
    ∃ f rest u, st.paths = f :: rest ∧ f.getLast? = some u ∧ u ≠ d ∧
      st' = ⟨rest ++ (oneHopAway dictionary st.usedWords u).1.map (fun word => f ++ [word]),
        f, (oneHopAway dictionary st.usedWords u).2⟩ := by
  obtain ⟨paths, cur, used⟩ := st
  cases paths with
  | nil => simp [loopStep] at h
  | cons f rest =>
    cases hlast : f.getLast? with
    | none => simp [loopStep, hlast] at h
    | some u =>
      by_cases hud : u = d
      · simp [loopStep, hlast, hud] at h
      · simp only [loopStep, hlast, hud, if_false, LoopStep.next.injEq] at h
        exact ⟨f, rest, u, rfl, hlast, hud, h.symm⟩

theorem loopHead_succ (dictionary : Lexicon) (d : Word) (k : Nat) (dequeued : List Ladder)
    (st : SearchState) (r : List Ladder × SearchState)
    (h : loopHead dictionary d (k + 1) dequeued st = some r) :
    ∃ st', loopStep dictionary d st = .next st' ∧
      loopHead dictionary d k (dequeued ++ [st'.wordLadder]) st' = some r := by
  simp only [loopHead] at h
  cases hstep : loopStep dictionary d st with
  | next st' =>
    rw [hstep] at h
    exact ⟨st', rfl, h⟩
  | found st' => rw [hstep] at h; simp at h
  | finished => rw [hstep] at h; simp at h
  | indexError => rw [hstep] at h; simp at h

/-- The invariant holds at every head of the loop. -/
theorem loopHead_inv (dictionary : Lexicon) (s d : Word) :
    ∀ (k : Nat) (dequeued : List Ladder) (st : SearchState) (r : List Ladder × SearchState),
      Inv dictionary s d dequeued st → loopHead dictionary d k dequeued st = some r →
      Inv dictionary s d r.1 r.2 := by
  intro k
  induction k with
  | zero =>
    intro dequeued st r hinv h
    simp only [loopHead, Option.some.injEq] at h
    subst h
    exact hinv
  | succ k ih =>
    intro dequeued st r hinv h
    obtain ⟨st', hstep, hrest⟩ := loopHead_succ dictionary d k dequeued st r h
    obtain ⟨f, rest, u, hp, hu, hud, rfl⟩ := loopStep_next dictionary d st st' hstep
    obtain ⟨paths, cur, used⟩ := st
    simp only at hp
    subst hp
    exact ih _ _ r (Inv.step dictionary s d dequeued f rest cur used u hinv hu hud) hrest

theorem loopHead_initial_inv (dictionary : Lexicon) (s d : Word) (k : Nat)
    (dequeued : List Ladder) (st : SearchState)
    (h : loopHead dictionary d k [] (initialState s) = some (dequeued, st)) :
    Inv dictionary s d dequeued st :=
  loopHead_inv dictionary s d k [] (initialState s) (dequeued, st)
    (Inv.initial dictionary s d) h

/-- At every head of the loop, each test word in the dictionary of the last word of a
dequeued ladder has been used.  No assumption on the dictionary is needed. -/
theorem loopHead_testWords_used (dictionary : Lexicon) (d : Word) :
    ∀ (k : Nat) (dequeued : List Ladder) (st : SearchState) (r : List Ladder × SearchState),
      (∀ l ∈ dequeued, ∀ u, l.getLast? = some u →
        ∀ v ∈ testWords u, v ∈ dictionary → v ∈ st.usedWords) →
      loopHead dictionary d k dequeued st = some r →
      ∀ l ∈ r.1, ∀ u, l.getLast? = some u →
        ∀ v ∈ testWords u, v ∈ dictionary → v ∈ r.2.usedWords := by
  intro k
  induction k with
  | zero =>
    intro dequeued st r hcl h
    simp only [loopHead, Option.some.injEq] at h
    subst h
    exact hcl
  | succ k ih =>
    intro dequeued st r hcl h
    obtain ⟨st', hstep, hrest⟩ := loopHead_succ dictionary d k dequeued st r h
    obtain ⟨f, rest, u, hp, hu, hud, rfl⟩ := loopStep_next dictionary d st st' hstep
    refine ih _ _ r ?_ hrest
    intro l hl u' hlu v hv hvd
    simp only
    rw [mem_oneHopAway_used, mem_oneHopAway]
    rcases List.mem_append.mp hl with hl | hl
    · exact Or.inl (hcl l hl u' hlu v hv hvd)
    · have hlf : l = f := by simpa using hl
      subst hlf
      rw [hu] at hlu
      have huu : u = u' := Option.some.inj hlu
      subst huu
      by_cases hused : v ∈ st.usedWords
      · exact Or.inl hused
      · exact Or.inr ⟨hv, hvd, hused⟩

/-- A run that returns was left at a head of the loop: there the front ladder ended in the
destination, or the queue was empty. -/
theorem whileLoop_returned_head (dictionary : Lexicon) (d : Word) :
    ∀ (fuel : Nat) (dequeued : List Ladder) (st : SearchState) (l : Ladder)
      (deq q : List Ladder), whileLoop dictionary d fuel dequeued st = .returned l deq q →
      ∃ k before st0, loopHead dictionary d k dequeued st = some (before, st0) ∧
        ((st0.paths = l :: q ∧ l.getLast? = some d ∧ deq = before ++ [l]) ∨
          (st0.paths = [] ∧ q = [] ∧ st0.wordLadder = l ∧ deq = before)) := by
  intro fuel
  induction fuel with
  | zero =>
    intro dequeued st l deq q h
    simp [whileLoop] at h
  | succ fuel ih =>
    intro dequeued st l deq q h
    simp only [whileLoop] at h
    cases hstep : loopStep dictionary d st with
    | next st' =>
      rw [hstep] at h
      simp only at h
      obtain ⟨k, before, st0, hk, hcase⟩ := ih _ st' l deq q h
      refine ⟨k + 1, before, st0, ?_, hcase⟩
      simp only [loopHead, hstep]
      exact hk
    | found st' =>
      rw [hstep] at h
      simp only [Outcome.returned.injEq] at h
      obtain ⟨h1, h2, h3⟩ := h
      refine ⟨0, dequeued, st, rfl, Or.inl ?_⟩
      obtain ⟨paths, cur, used⟩ := st
      cases paths with
      | nil => simp [loopStep] at hstep
      | cons f rest =>
        cases hlast : f.getLast? with
        | none => simp [loopStep, hlast] at hstep
        | some u =>
          by_cases hud : u = d
          · simp only [loopStep, hlast, hud, if_true, LoopStep.found.injEq] at hstep
            subst hstep
            simp only at h1 h2 h3
            subst h1 h3
            exact ⟨rfl, by rw [hlast, hud], h2.symm⟩
          · simp [loopStep, hlast, hud] at hstep
    | finished =>
      rw [hstep] at h
      simp only [Outcome.returned.injEq] at h
      obtain ⟨h1, h2, h3⟩ := h
      refine ⟨0, dequeued, st, rfl, Or.inr ?_⟩
      obtain ⟨paths, cur, used⟩ := st
      cases paths with
      | nil => exact ⟨rfl, h3.symm, h1, h2.symm⟩
      | cons f rest =>
        cases hlast : f.getLast? with
        | none => simp [loopStep, hlast] at hstep
        | some u =>
          by_cases hud : u = d
          · simp [loopStep, hlast, hud] at hstep
          · simp [loopStep, hlast, hud] at hstep
    | indexError =>
      rw [hstep] at h
      simp at h

/-! ## More on `oneHopAway` -/

/-- A substitution inside the word gives the word back exactly when it writes the
character that is already there. -/
theorem set_eq_self_iff :
    ∀ (w : Word) (i : Nat) (c : Char), i < w.length → (w.set i c = w ↔ w[i]? = some c)
  | [], _, _, h => by simp at h
  | x :: xs, 0, c, _ => by simp [List.set, eq_comm]
  | x :: xs, i + 1, c, h => by
    have hi : i < xs.length := by simpa using h
    simp [List.set, set_eq_self_iff xs i c hi]

/-- The word itself is among its test words exactly when it has a lowercase letter. -/
theorem self_mem_testWords_iff (w : Word) :
    w ∈ testWords w ↔ ∃ c ∈ w, c ∈ alphabet := by
  rw [mem_testWords]
  constructor
  · rintro ⟨i, hi, c, hc, heq⟩
    have := (set_eq_self_iff w i c hi).mp heq.symm
    exact ⟨c, List.getElem?_mem this, hc⟩
  · rintro ⟨c, hcw, hc⟩
    obtain ⟨i, hi, hget⟩ := List.getElem_of_mem hcw
    refine ⟨i, hi, c, hc, ((set_eq_self_iff w i c hi).mpr ?_).symm⟩
    rw [List.getElem?_eq_getElem hi, hget]

/-- Filtering a concatenation of blocks keeps at most `n` words of each block. -/
theorem length_filter_flatten_le (p : Word → Bool) (n : Nat) :
    ∀ blocks : List (List Word), (∀ b ∈ blocks, (b.filter p).length ≤ n) →
      (blocks.flatten.filter p).length ≤ n * blocks.length
  | [], _ => by simp
  | b :: bs, h => by
    have hb := h b (List.mem_cons_self _ _)
    have hbs := length_filter_flatten_le p n bs
      (fun b' hb' => h b' (List.mem_cons_of_mem _ hb'))
    rw [List.flatten_cons, List.filter_append, List.length_append, List.length_cons,
      Nat.mul_succ]
    omega

theorem alphabet_filter_ne :
    ∀ a ∈ alphabet, (alphabet.filter (fun c => decide (c ≠ a))).length = 25 := by
  decide

/-- Of the 26 substitutions at a position holding a lowercase letter, 25 change the
word. -/
theorem length_block_filter (w : Word) (i : Nat) (hi : i < w.length)
    (hlow : LowercaseWord w) :
    ((alphabet.map (fun c => w.set i c)).filter (fun x => decide (x ≠ w))).length = 25 := by
  have hmem : w[i] ∈ alphabet := hlow _ (List.getElem_mem hi)
  rw [List.filter_map, List.length_map, ← alphabet_filter_ne w[i] hmem]
  congr 1
  apply List.filter_congr
  intro c _
  simp only [Function.comp, ne_eq, decide_not, Bool.not_eq_eq_eq_not, Bool.not_not,
    decide_eq_decide]
  rw [set_eq_self_iff w i c hi, List.getElem?_eq_getElem hi, Option.some.injEq, eq_comm]

/-- A lowercase word of length `L` has at most `25 * L` test words other than itself. -/
theorem length_testWords_filter (w : Word) (hlow : LowercaseWord w) :
    ((testWords w).filter (fun x => decide (x ≠ w))).length ≤ 25 * w.length := by
  have h := length_filter_flatten_le (fun x => decide (x ≠ w)) 25
    ((List.range w.length).map (fun i => alphabet.map (fun c => w.set i c))) (by
      intro b hb
      rw [List.mem_map] at hb
      obtain ⟨i, hi, rfl⟩ := hb
      rw [List.mem_range] at hi
      exact le_of_eq (length_block_filter w i hi hlow))
  rw [List.length_map, List.length_range] at h
  exact h

/-- C11 (neighbour generation side effect).  After `oneHopAway(D, V, w)` has returned `R`,
a word is in the visited set exactly when it was in `V` or is in `R` (every returned word
was added, every word of `V` is kept, nothing else was added), and a second call with the
updated set returns no word. -/
theorem oneHopAway_side_effect (dictionary usedWords : Lexicon) (topWord : Word) :
    (∀ x, x ∈ (oneHopAway dictionary usedWords topWord).2 ↔
        x ∈ usedWords ∨ x ∈ (oneHopAway dictionary usedWords topWord).1) ∧
      (oneHopAway dictionary (oneHopAway dictionary usedWords topWord).2 topWord).1 = [] := by
  refine ⟨mem_oneHopAway_used dictionary usedWords topWord, ?_⟩
  rw [List.eq_nil_iff_forall_not_mem]
  intro x hx
  rw [mem_oneHopAway, mem_oneHopAway_used, mem_oneHopAway] at hx
  obtain ⟨h1, h2, h3⟩ := hx
  by_cases hu : x ∈ usedWords
  · exact h3 (Or.inl hu)
  · exact h3 (Or.inr ⟨h1, h2, hu⟩)

/-- C12 as stated fails: with the dictionary cat, cot, dog and an empty visited set,
`oneHopAway` on "cat" returns "cat" itself. -/
theorem oneHopAway_returns_self :
    ¬ ("cat".toList ∉ (oneHopAway catDictionary [] "cat".toList).1) := by
  decide

/-- C12 (self-exclusion), amended.  The set returned by `oneHopAway(D, V, w)` does not
contain `w` exactly when `w` is in `V`, or `w` is not in `D`, or no character of `w` is a
lowercase letter; in particular it never contains a `w` that is already in `V`. -/
theorem oneHopAway_self_excluded_iff (dictionary usedWords : Lexicon) (topWord : Word) :
    topWord ∉ (oneHopAway dictionary usedWords topWord).1 ↔
      (topWord ∈ usedWords ∨ topWord ∉ dictionary ∨ ∀ c ∈ topWord, c ∉ alphabet) := by
  rw [mem_oneHopAway, self_mem_testWords_iff]
  constructor
  · intro h
    by_cases hu : topWord ∈ usedWords
    · exact Or.inl hu
    · by_cases hd : topWord ∈ dictionary
      · refine Or.inr (Or.inr ?_)
        intro c hc hca
        exact h ⟨⟨c, hc, hca⟩, hd, hu⟩
      · exact Or.inr (Or.inl hd)
  · rintro (h | h | h) ⟨⟨c, hc, hca⟩, hd, hu⟩
    · exact hu h
    · exact h hd
    · exact h c hc hca

set_option maxRecDepth 100000 in
/-- C13 as stated fails in two ways, both on the 26 one-letter words as dictionary: for the
unvisited word "a" the 26 words returned include "a" itself, and for the visited word "A",
which holds no lowercase letter, all 26 substitutions are new words. -/
theorem oneHopAway_count_exceeds :
    ¬ ((oneHopAway letterDictionary [] "a".toList).1.length ≤ 25 * "a".toList.length) ∧
      "A".toList ∈ ["A".toList] ∧
      ¬ ((oneHopAway letterDictionary ["A".toList] "A".toList).1.length
          ≤ 25 * "A".toList.length) := by
  decide

/-- C13 (neighbour count bound), amended.  For every dictionary `D`, visited set `V` and
word `w` of lowercase letters that is already in `V`, `oneHopAway(D, V, w)` returns at most
`25 * |w|` words. -/
theorem oneHopAway_count_le (dictionary usedWords : Lexicon) (topWord : Word)
    (hlow : LowercaseWord topWord) (hused : topWord ∈ usedWords) :
    (oneHopAway dictionary usedWords topWord).1.length ≤ 25 * topWord.length := by
  have hsub : (oneHopAway dictionary usedWords topWord).1
      ⊆ (testWords topWord).filter (fun x => decide (x ≠ topWord)) := by
    intro x hx
    rw [mem_oneHopAway] at hx
    rw [List.mem_filter]
    refine ⟨hx.1, ?_⟩
    simp only [ne_eq, decide_not, Bool.not_eq_eq_eq_not, Bool.not_true, decide_eq_false_iff_not]
    rintro rfl
    exact hx.2.2 hused
  have hle := (List.subperm_of_subset (nodup_oneHopAway dictionary usedWords topWord)
    hsub).length_le
  exact le_trans hle (length_testWords_filter topWord hlow)

/-- Witness of C13: the word "cat", already visited, has at most 75 neighbours. -/
theorem oneHopAway_count_le_witness :
    (oneHopAway catDictionary ["cat".toList] "cat".toList).1.length
      ≤ 25 * "cat".toList.length :=
  oneHopAway_count_le catDictionary ["cat".toList] "cat".toList (by decide) (by decide)

/-! ## The value returned when the queue runs empty -/

theorem eq_singleton_of_head?_of_length {α : Type} (l : List α) (a : α)
    (hhead : l.head? = some a) (hlen : l.length ≤ 1) : l = [a] := by
  cases l with
  | nil => simp at hhead
  | cons x xs =>
    cases xs with
    | nil =>
      simp only [List.head?_cons, Option.some.injEq] at hhead
      rw [hhead]
    | cons y ys => simp at hlen

/-- In a list sorted by length, no ladder is longer than the last one. -/
theorem length_le_getLast (ladders : List Ladder) (r : Ladder)
    (hsorted : (ladders.map List.length).Pairwise (fun m n => m ≤ n))
    (hlast : ladders.getLast? = some r) : ∀ l ∈ ladders, l.length ≤ r.length := by
  rcases List.eq_nil_or_concat ladders with hnil | ⟨init, x, hx⟩
  · subst hnil
    simp at hlast
  · rw [List.concat_eq_append] at hx
    subst hx
    rw [List.getLast?_concat] at hlast
    have hxr : x = r := Option.some.inj hlast
    subst hxr
    rw [List.map_append, List.pairwise_append] at hsorted
    intro l hl
    rcases List.mem_append.mp hl with h | h
    · exact hsorted.2.2 l.length (List.mem_map_of_mem _ h) x.length (by simp)
    · have hlx : l = x := by simpa using h
      rw [hlx]

/-- When the queue is empty, `wordLadder` holds the last ladder dequeued. -/
theorem Inv.exhausted_last (dictionary : Lexicon) (s d : Word) (before : List Ladder)
    (st : SearchState) (hinv : Inv dictionary s d before st) (hp : st.paths = []) :
    before.getLast? = some st.wordLadder := by
  have hne : before ≠ [] := by
    intro hnil
    have := hinv.start hnil
    rw [hp] at this
    simp at this
  cases hb : before.getLast? with
  | none => exact absurd (List.getLast?_eq_none_iff.mp hb) hne
  | some x =>
    have hcur := hinv.cur
    rw [hb] at hcur
    simp only [Option.getD_some] at hcur
    rw [hcur]

/-- The head of the loop at which `getWordLadder` leaves it. -/
theorem getWordLadder_left_at (dictionary : Lexicon) (s d : Word) :
    ∃ k before st0, loopHead dictionary d k [] (initialState s) = some (before, st0) ∧
      ((∃ q, st0.paths = getWordLadder dictionary s d :: q ∧
          (getWordLadder dictionary s d).getLast? = some d) ∨
        (st0.paths = [] ∧ st0.wordLadder = getWordLadder dictionary s d)) := by
  have hlen := toFinset_card_le_length dictionary
  obtain ⟨deq, q, hrun, _, _⟩ :=
    getWordLadderFuel_eq dictionary s d (dictionary.length + 2) (by omega)
  obtain ⟨k, before, st0, hk, hcase⟩ :=
    whileLoop_returned_head dictionary d _ [] (initialState s) _ deq q hrun
  refine ⟨k, before, st0, hk, ?_⟩
  rcases hcase with ⟨h1, h2, _⟩ | ⟨h1, _, h3, _⟩
  · exact Or.inl ⟨q, h1, h2⟩
  · exact Or.inr ⟨h1, h3⟩

/-- A source without a dictionary neighbour and different from the destination: the loop
runs twice and returns the source alone. -/
theorem getWordLadder_isolated (dictionary : Lexicon) (s d : Word) (hsd : s ≠ d)
    (hnone : ∀ x ∈ testWords s, x ∈ dictionary → x = s) :
    getWordLadder dictionary s d = [s] := by
  have hhops : (oneHopAway dictionary (Lexicon.add [] s) s).1 = [] := by
    rw [List.eq_nil_iff_forall_not_mem]
    intro x hx
    rw [mem_oneHopAway, Lexicon.mem_add] at hx
    exact hx.2.2 (Or.inl (hnone x hx.1 hx.2.1))
  unfold getWordLadder
  simp [getWordLadderFuel, whileLoop, loopStep, initialState, hsd, hhops]

/-- C14 (the one-element result).  For every dictionary and all words `s`, `d`, the ladder
returned has exactly one element exactly when it is `[s]`, and that is the case exactly
when `s = d` or no word of the dictionary other than `s` is `s` with one position replaced
by a lowercase letter; for the dictionary aaa, bbb the search from "aaa" to "bbb" returns
the ladder of "aaa" alone. -/
theorem getWordLadder_singleton_iff (dictionary : Lexicon) (s d : Word) :
    ((getWordLadder dictionary s d).length = 1 ↔ getWordLadder dictionary s d = [s]) ∧
      (getWordLadder dictionary s d = [s] ↔
        (s = d ∨ ¬ ∃ x ∈ dictionary, x ≠ s ∧
          ∃ i, i < s.length ∧ ∃ c ∈ alphabet, x = s.set i c)) ∧
      getWordLadder ["aaa".toList, "bbb".toList] "aaa".toList "bbb".toList
        = ["aaa".toList] := by
  refine ⟨?_, ?_, by decide⟩
  · constructor
    · intro h
      exact eq_singleton_of_head?_of_length _ s (getWordLadder_head dictionary s d)
        (le_of_eq h)
    · intro h
      rw [h]
      rfl
  · constructor
    · intro hr
      by_cases hsd : s = d
      · exact Or.inl hsd
      · refine Or.inr ?_
        rintro ⟨x, hxd, hxs, hxt⟩
        have hxt' : x ∈ testWords s := (mem_testWords s x).mpr hxt
        obtain ⟨k, before, st0, hk, hcase⟩ := getWordLadder_left_at dictionary s d
        rw [hr] at hcase
        rcases hcase with ⟨q, _, hlast⟩ | ⟨hp, hcur⟩
        · simp only [List.getLast?_singleton, Option.some.injEq] at hlast
          exact hsd hlast
        · have hinv := loopHead_initial_inv dictionary s d k before st0 hk
          have hlast := Inv.exhausted_last dictionary s d before st0 hinv hp
          rw [hcur] at hlast
          have hs_mem : [s] ∈ before := mem_of_getLast?_eq_some before [s] hlast
          have hused := loopHead_testWords_used dictionary d k [] (initialState s)
            (before, st0) (fun l hl => absurd hl (List.not_mem_nil l)) hk
            [s] hs_mem s rfl x hxt' hxd
          obtain ⟨l, hl, hlx⟩ := (hinv.used_iff x).mp hused
          have hl' : l ∈ before := by simpa [hp] using hl
          have hsorted := hinv.sorted
          rw [hp, List.append_nil] at hsorted
          have hlen := length_le_getLast before [s] hsorted hlast l hl'
          have hls := eq_singleton_of_head?_of_length l s (hinv.head l hl) hlen
          rw [hls] at hlx
          simp only [List.getLast?_singleton, Option.some.injEq] at hlx
          exact hxs hlx.symm
    · rintro (hsd | hnone)
      · subst hsd
        unfold getWordLadder
        simp [getWordLadderFuel, whileLoop, loopStep, initialState]
      · by_cases hsd : s = d
        · subst hsd
          unfold getWordLadder
          simp [getWordLadderFuel, whileLoop, loopStep, initialState]
        · apply getWordLadder_isolated dictionary s d hsd
          intro x hx hxd
          by_contra hxs
          exact hnone ⟨x, hxd, hxs, (mem_testWords s x).mp hx⟩

theorem cat_dog_unreachable :
    ¬ ∃ chain, ValidChain catDictionary "cat".toList "dog".toList chain := by
  have hval : getWordLadder catDictionary "cat".toList "dog".toList
      = ["cat".toList, "cot".toList] := by decide
  rintro ⟨chain, hchain⟩
  have h := getWordLadder_last_of_chain catDictionary "cat".toList "dog".toList
    (by decide) chain hchain
  rw [hval] at h
  exact absurd h (by decide)

/-- C15 (value returned on exhaustion).  For a dictionary of lowercase words and words
`s`, `d` with `d` not reachable from `s`, the run empties the queue and returns the last
ladder it dequeued; that ladder is a valid chain from `s` to its last word `v`, its element
count is the ladder distance of `v` plus one, and no reachable word has a greater ladder
distance than `v`. -/
theorem getWordLadder_exhausted (dictionary : Lexicon) (s d : Word)
    (hlow : LowercaseLexicon dictionary)
    (hunreach : ¬ ∃ chain, ValidChain dictionary s d chain) (extra : Nat) :
    ∃ dequeued v n,
      getWordLadderFuel (dictionary.size + 2 + extra) dictionary s d
        = .returned (getWordLadder dictionary s d) dequeued [] ∧
      dequeued.getLast? = some (getWordLadder dictionary s d) ∧
      ValidChain dictionary s v (getWordLadder dictionary s d) ∧
      HasDistance dictionary s v n ∧
      (getWordLadder dictionary s d).length = n + 1 ∧
      ∀ w m, HasDistance dictionary s w m → m ≤ n := by
  obtain ⟨deq, q, hrun, _, before, st, hinv, hcase⟩ := getWordLadderFuel_eq dictionary s d
    (dictionary.size + 2 + extra) (by unfold Lexicon.size; omega)
  rcases hcase with ⟨_, hlast, _⟩ | ⟨hp, hq, hcur, hdeq⟩
  · exact absurd ⟨_, getWordLadder_validChain dictionary s d hlast⟩ hunreach
  · have hlast := Inv.exhausted_last dictionary s d before st hinv hp
    rw [hcur] at hlast
    have hmem : getWordLadder dictionary s d ∈ before ++ st.paths :=
      List.mem_append_left _ (mem_of_getLast?_eq_some before _ hlast)
    have hpos := length_pos_of_head? _ s (getWordLadder_head dictionary s d)
    obtain ⟨v, hv⟩ : ∃ v, (getWordLadder dictionary s d).getLast? = some v := by
      cases h : (getWordLadder dictionary s d).getLast? with
      | none =>
        rw [List.getLast?_eq_none_iff] at h
        rw [h] at hpos
        simp at hpos
      | some v => exact ⟨v, rfl⟩
    have hvalid : ValidChain dictionary s v (getWordLadder dictionary s d) := by
      rw [validChain_iff]
      exact ⟨getWordLadder_head dictionary s d, hv, getWordLadder_chain dictionary s d⟩
    have hsorted := hinv.sorted
    rw [hp, List.append_nil] at hsorted
    rw [hq, hdeq] at hrun
    refine ⟨before, v, (getWordLadder dictionary s d).length - 1, hrun, hlast, hvalid,
      ⟨⟨_, hvalid, by omega⟩, ?_⟩, by omega, ?_⟩
    · intro chain hchain
      rw [validChain_iff] at hchain
      have := hinv.minimal hlow _ hmem chain hchain.1 hchain.2.2 (by rw [hchain.2.1, hv])
      omega
    · rintro w m ⟨⟨chain, hchain, _⟩, hmin⟩
      have hchain' := (validChain_iff dictionary s w chain).mp hchain
      have hw := Inv.exhausted_closed dictionary s d before st hinv hlow hp chain w
        hchain'.1 hchain'.2.2 hchain'.2.1
      obtain ⟨l, hl, hlw⟩ := (hinv.used_iff w).mp hw
      have hl' : l ∈ before := by simpa [hp] using hl
      have hle := length_le_getLast before _ hsorted hlast l hl'
      have hlvalid : ValidChain dictionary s w l := by
        rw [validChain_iff]
        exact ⟨hinv.head l hl, hlw, hinv.chain l hl⟩
      have := hmin l hlvalid
      omega

/-- Witness of C15: "dog" cannot be reached from "cat" in the dictionary cat, cot, dog. -/
theorem getWordLadder_exhausted_witness :
    ∃ dequeued v n,
      getWordLadderFuel (catDictionary.size + 2 + 0) catDictionary "cat".toList "dog".toList
        = .returned (getWordLadder catDictionary "cat".toList "dog".toList) dequeued [] ∧
      dequeued.getLast? = some (getWordLadder catDictionary "cat".toList "dog".toList) ∧
      ValidChain catDictionary "cat".toList v
        (getWordLadder catDictionary "cat".toList "dog".toList) ∧
      HasDistance catDictionary "cat".toList v n ∧
      (getWordLadder catDictionary "cat".toList "dog".toList).length = n + 1 ∧
      ∀ w m, HasDistance catDictionary "cat".toList w m → m ≤ n :=
  getWordLadder_exhausted catDictionary "cat".toList "dog".toList (by decide)
    cat_dog_unreachable 0

/-! ## Invariants at the head of the loop, and the validation of the endpoints -/

theorem loopHead_hit_two :
    loopHead hitDictionary "cog".toList 2 [] (initialState "hit".toList)
      = some ([["hit".toList], ["hit".toList, "hot".toList]], hitStateTwo) := by
  decide

/-- The last word of a ladder is its first word or one of the words after it. -/
theorem getLast?_eq_head_or_mem_tail {α : Type} (l : List α) (a b : α)
    (hhead : l.head? = some a) (hlast : l.getLast? = some b) : b = a ∨ b ∈ l.tail := by
  cases l with
  | nil => simp at hhead
  | cons x xs =>
    cases xs with
    | nil =>
      simp only [List.head?_cons, Option.some.injEq] at hhead
      simp only [List.getLast?_singleton, Option.some.injEq] at hlast
      exact Or.inl (by rw [← hlast, hhead])
    | cons y ys =>
      rw [List.getLast?_cons_cons] at hlast
      exact Or.inr (mem_of_getLast?_eq_some _ b hlast)

/-- With the invariant in force the loop never reads past the end of a ladder. -/
theorem whileLoop_ne_indexError (dictionary : Lexicon) (s d : Word) :
    ∀ (fuel : Nat) (dequeued : List Ladder) (st : SearchState),
      Inv dictionary s d dequeued st →
      whileLoop dictionary d fuel dequeued st ≠ .indexError := by
  intro fuel
  induction fuel with
  | zero =>
    intro dequeued st _
    simp [whileLoop]
  | succ fuel ih =>
    intro dequeued st hinv
    obtain ⟨paths, cur, used⟩ := st
    cases paths with
    | nil => simp [whileLoop, loopStep]
    | cons f rest =>
      have hf_mem : f ∈ dequeued ++ f :: rest :=
        List.mem_append_right _ (List.mem_cons_self _ _)
      have hhead := hinv.head f hf_mem
      cases hlast : f.getLast? with
      | none =>
        rw [List.getLast?_eq_none_iff] at hlast
        subst hlast
        simp at hhead
      | some u =>
        by_cases hud : u = d
        · simp [whileLoop, loopStep, hlast, hud]
        · have hstep := Inv.step dictionary s d dequeued f rest cur used u hinv hlast hud
          simp only [whileLoop, loopStep, hlast, hud, if_false]
          exact ih _ _ hstep

/-- C16 (level order of the frontier).  At the start of every iteration of the loop the
ladders in the queue are in non-decreasing order of length from front to back, the back
ladder is at most one longer than the front ladder, and every ladder dequeued so far is no
longer than any ladder in the queue, hence than any ladder enqueued after it. -/
theorem loopHead_level_order (dictionary : Lexicon) (s d : Word) (k : Nat)
    (dequeued : List Ladder) (st : SearchState)
    (h : loopHead dictionary d k [] (initialState s) = some (dequeued, st)) :
    (st.paths.map List.length).Pairwise (fun m n => m ≤ n) ∧
      (∀ f ∈ st.paths.head?, ∀ b ∈ st.paths.getLast?,
        f.length ≤ b.length ∧ b.length ≤ f.length + 1) ∧
      (∀ a ∈ dequeued, ∀ b ∈ st.paths, a.length ≤ b.length) := by
  have hinv := loopHead_initial_inv dictionary s d k dequeued st h
  have hsorted := hinv.sorted
  rw [List.map_append, List.pairwise_append] at hsorted
  refine ⟨hsorted.2.1, ?_, ?_⟩
  · intro f hf b hb
    have hbmem : b ∈ st.paths := List.mem_of_mem_getLast? hb
    refine ⟨?_, hinv.front_bound f hf b hbmem⟩
    cases hp : st.paths with
    | nil =>
      rw [hp] at hf
      simp at hf
    | cons x xs =>
      rw [hp] at hf hbmem
      have hxf : x = f := by simpa using hf
      subst hxf
      rcases List.mem_cons.mp hbmem with rfl | hbx
      · exact le_rfl
      · have := hsorted.2.1
        rw [hp, List.map_cons, List.pairwise_cons] at this
        exact this.1 b.length (List.mem_map_of_mem _ hbx)
  · intro a ha b hb
    exact hsorted.2.2 a.length (List.mem_map_of_mem _ ha) b.length
      (List.mem_map_of_mem _ hb)

/-- Witness of C16: the search from "hit" to "cog" after two executions of the body. -/
theorem loopHead_level_order_witness :
    (hitStateTwo.paths.map List.length).Pairwise (fun m n => m ≤ n) ∧
      (∀ f ∈ hitStateTwo.paths.head?, ∀ b ∈ hitStateTwo.paths.getLast?,
        f.length ≤ b.length ∧ b.length ≤ f.length + 1) ∧
      (∀ a ∈ [["hit".toList], ["hit".toList, "hot".toList]], ∀ b ∈ hitStateTwo.paths,
        a.length ≤ b.length) :=
  loopHead_level_order hitDictionary "hit".toList "cog".toList 2
    [["hit".toList], ["hit".toList, "hot".toList]] hitStateTwo loopHead_hit_two

/-- C17 (endpoint validation), evaluated where it fails: with the dictionary cat, dogs,
bird, source "cat", destination "dogs" and the next input line "bird",
`checkWordEndpoints` returns false and leaves "bird" as destination, whose length differs
from that of "cat"; on the input lines cat, dogs, bird an iteration of `main` calls
`getWordLadder` with "cat" and "bird". -/
theorem checkWordEndpoints_accepts_unequal :
    checkWordEndpoints mixedDictionary "cat".toList "dogs".toList ["bird".toList]
        = (false, "bird".toList, []) ∧
      "cat".toList.length ≠ "bird".toList.length ∧
      mainIteration mixedDictionary ["cat".toList, "dogs".toList, "bird".toList]
        = some ("cat".toList, "bird".toList) := by
  decide

/-- C18 (index safety).  For every dictionary and all words `s`, `d`, at the start of every
iteration every ladder in the queue is non-empty and the evaluation of the loop does not
read out of range; no run of `getWordLadder`, whatever the fuel, ends in an index error;
and the ladder returned is non-empty, so `printWordLadder` finds its first element. -/
theorem getWordLadder_index_safe (dictionary : Lexicon) (s d : Word) (k : Nat)
    (dequeued : List Ladder) (st : SearchState)
    (h : loopHead dictionary d k [] (initialState s) = some (dequeued, st)) :
    (∀ l ∈ st.paths, l ≠ []) ∧
      loopStep dictionary d st ≠ .indexError ∧
      (∀ fuel, getWordLadderFuel fuel dictionary s d ≠ .indexError) ∧
      getWordLadder dictionary s d ≠ [] ∧
      printWordLadder (getWordLadder dictionary s d) s d ≠ none := by
  have hinv := loopHead_initial_inv dictionary s d k dequeued st h
  have hne : ∀ l ∈ st.paths, l ≠ [] := by
    intro l hl hnil
    have := hinv.head l (List.mem_append_right _ hl)
    rw [hnil] at this
    simp at this
  have hhead := getWordLadder_head dictionary s d
  refine ⟨hne, ?_, ?_, ?_, ?_⟩
  · obtain ⟨paths, cur, used⟩ := st
    cases paths with
    | nil => simp [loopStep]
    | cons f rest =>
      cases hlast : f.getLast? with
      | none =>
        rw [List.getLast?_eq_none_iff] at hlast
        exact absurd hlast (hne f (List.mem_cons_self _ _))
      | some u =>
        by_cases hud : u = d
        · simp [loopStep, hlast, hud]
        · simp [loopStep, hlast, hud]
  · intro fuel
    exact whileLoop_ne_indexError dictionary s d fuel [] (initialState s)
      (Inv.initial dictionary s d)
  · intro hnil
    rw [hnil] at hhead
    simp at hhead
  · unfold printWordLadder
    rw [hhead]
    split
    · simp
    · split <;> simp

/-- Witness of C18: the search from "hit" to "cog" after two executions of the body. -/
theorem getWordLadder_index_safe_witness :
    (∀ l ∈ hitStateTwo.paths, l ≠ []) ∧
      loopStep hitDictionary "cog".toList hitStateTwo ≠ .indexError ∧
      (∀ fuel, getWordLadderFuel fuel hitDictionary "hit".toList "cog".toList
        ≠ .indexError) ∧
      getWordLadder hitDictionary "hit".toList "cog".toList ≠ [] ∧
      printWordLadder (getWordLadder hitDictionary "hit".toList "cog".toList)
        "hit".toList "cog".toList ≠ none :=
  getWordLadder_index_safe hitDictionary "hit".toList "cog".toList 2
    [["hit".toList], ["hit".toList, "hot".toList]] hitStateTwo loopHead_hit_two

/-- C19 (visited-set invariant).  At the start of every iteration of the loop every word of
every ladder in the queue is in `usedWords`, the ladders in the queue end in pairwise
distinct words, every word of `usedWords` is in the dictionary or is the source, and the
last word of the front ladder, with which `oneHopAway` is called, is in `usedWords`. -/
theorem loopHead_visited (dictionary : Lexicon) (s d : Word) (k : Nat)
    (dequeued : List Ladder) (st : SearchState)
    (h : loopHead dictionary d k [] (initialState s) = some (dequeued, st)) :
    (∀ l ∈ st.paths, ∀ w ∈ l, w ∈ st.usedWords) ∧
      (st.paths.map List.getLast?).Nodup ∧
      (∀ w ∈ st.usedWords, w ∈ dictionary ∨ w = s) ∧
      (∀ f ∈ st.paths.head?, ∀ u ∈ f.getLast?, u ∈ st.usedWords) := by
  have hinv := loopHead_initial_inv dictionary s d k dequeued st h
  refine ⟨?_, ?_, ?_, ?_⟩
  · intro l hl
    exact hinv.mem_used l (List.mem_append_right _ hl)
  · have := hinv.lasts_nodup
    rw [List.map_append, List.nodup_append] at this
    exact this.2.1
  · intro w hw
    obtain ⟨l, hl, hlw⟩ := (hinv.used_iff w).mp hw
    rcases getLast?_eq_head_or_mem_tail l s w (hinv.head l hl) hlw with hws | hwt
    · exact Or.inr hws
    · exact Or.inl (((chain'_hop_iff dictionary l).mp (hinv.chain l hl)).1 w hwt)
  · intro f hf u hu
    have hfmem : f ∈ st.paths := List.mem_of_mem_head? hf
    exact hinv.mem_used f (List.mem_append_right _ hfmem) u (List.mem_of_mem_getLast? hu)

/-- Witness of C19: the search from "hit" to "cog" after two executions of the body. -/
theorem loopHead_visited_witness :
    (∀ l ∈ hitStateTwo.paths, ∀ w ∈ l, w ∈ hitStateTwo.usedWords) ∧
      (hitStateTwo.paths.map List.getLast?).Nodup ∧
      (∀ w ∈ hitStateTwo.usedWords, w ∈ hitDictionary ∨ w = "hit".toList) ∧
      (∀ f ∈ hitStateTwo.paths.head?, ∀ u ∈ f.getLast?, u ∈ hitStateTwo.usedWords) :=
  loopHead_visited hitDictionary "hit".toList "cog".toList 2
    [["hit".toList], ["hit".toList, "hot".toList]] hitStateTwo loopHead_hit_two

end WordLadder
